import Mathlib

/-!
# Yggdrasil: ingress translator

A shallow embedding of `pkg/envoy/ingress_translator.go`: the structural
comparators (`ClustersEquals`, `VirtualHostsEquals`, `cluster.Equals`,
`envoyConfiguration.equals`) and the translation pass `translateIngresses`.

Conventions of the embedding

* Go `string` is `String`; `[]byte` secret data is kept as the string that
  `string(b)` yields, so that conversion is the identity on contents.
* `time.Duration` is an integer number of nanoseconds.
* A slice of pointers `[]*T` is a `List T` (the pointers are non-nil, as in every
  slice built by `translateIngresses`); a pointer argument that the code tests
  against `nil` is an `Option`.
* Go maps are association lists with pairwise distinct keys; the order in which
  `range` visits a map is not fixed by the language and is a parameter
  (`MapRange`).
* `sort.Slice` and `sort.Strings` belong to the Go standard library; they enter
  through their contract (`SliceSort`), with the insertion sort that the library
  runs on short slices as a concrete instance.
* `time.ParseDuration` is a parameter `parseDuration : String → Option Duration`
  (`none` is a non-nil error).
* Log lines and the metric gauges are effects outside the returned values and are
  left out.
-/

namespace Yggdrasil

/-! ## Library types -/

/-- Nanoseconds, as `time.Duration`. -/
abbrev Duration := Int

/-- The constant `time.Second`. -/
def Second : Duration := 1000000000

/-- One entry of `Status.LoadBalancer.Ingress`. -/
structure LoadBalancerIngress where
  IP : String
  Hostname : String
deriving DecidableEq

/-- One entry of `Spec.Rules`; only the host is read. -/
structure IngressRule where
  Host : String
deriving DecidableEq

/-- One entry of `Spec.TLS`. -/
structure IngressTLS where
  Hosts : List String
  SecretName : String
deriving DecidableEq

/-- The fields of `v1beta1.Ingress` that the translator reads. -/
structure Ingress where
  Name : String
  Namespace : String
  Annotations : List (String × String)
  TLS : List IngressTLS
  Rules : List IngressRule
  LoadBalancer : List LoadBalancerIngress
deriving DecidableEq

/-- The fields of `v1.Secret` that the translator reads. -/
structure Secret where
  Name : String
  Namespace : String
  Data : List (String × String)
deriving DecidableEq

/-! ## Go maps as association lists -/

/-- Map read `m[k]` with the comma-ok result as an `Option`. -/
def mapGet {β : Type} (m : List (String × β)) (k : String) : Option β :=
  match m with
  | [] => none
  | (k', v) :: rest => if k' = k then some v else mapGet rest k

/-- Map write `m[k] = v`: overwrite the entry when the key is present, add one otherwise. -/
def mapSet {β : Type} (k : String) (v : β) (m : List (String × β)) : List (String × β) :=
  match m with
  | [] => [(k, v)]
  | (k', v') :: rest => if k' = k then (k', v) :: rest else (k', v') :: mapSet k v rest

/-- Reading a `map[string]string` yields the empty string for a missing key. -/
def mapGetString (m : List (String × String)) (k : String) : String :=
  (mapGet m k).getD ""

/-- The accessor `GetAnnotations()[key]`. -/
def Ingress.annotation (i : Ingress) (key : String) : String :=
  mapGetString i.Annotations key

/-- An iteration order for `range` over a map: some rearrangement of its entries. -/
structure MapRange where
  range : {β : Type} → List (String × β) → List (String × β)
  perm : ∀ {β : Type} (m : List (String × β)), (range m).Perm m

/-- The contract of `sort.Slice` with a comparison of string keys: the result is a
rearrangement of the input in which no element precedes one of smaller key. -/
structure SliceSort where
  sortSlice : {α : Type} → (α → α → Bool) → List α → List α
  perm : ∀ {α : Type} (less : α → α → Bool) (l : List α), (sortSlice less l).Perm l
  sorted : ∀ {α : Type} (key : α → String) (l : List α),
    (sortSlice (fun x y => decide (key x < key y)) l).Pairwise (fun x y => ¬ key y < key x)

/-! ## The configuration model -/

structure virtualHost where
  Host : String
  UpstreamCluster : String
  Timeout : Duration
  PerTryTimeout : Duration
  TlsKey : String
  TlsCert : String
deriving DecidableEq

structure vhostSecret where
  SecretName : String
  SecretNamespace : String
deriving DecidableEq

structure cluster where
  Name : String
  VirtualHost : String
  HealthCheckPath : String
  Timeout : Duration
  Hosts : List String
deriving DecidableEq

structure envoyConfiguration where
  VirtualHosts : List virtualHost
  Clusters : List cluster
deriving DecidableEq

structure envoyIngress where
  vhost : virtualHost
  cluster : cluster
deriving DecidableEq

/-! ## Comparators -/

def virtualHost.Equals (v : virtualHost) (other : Option virtualHost) : Bool :=
  match other with
  | none => false
  | some other =>
    decide (v.Host = other.Host) &&
    decide (v.Timeout = other.Timeout) &&
    decide (v.UpstreamCluster = other.UpstreamCluster) &&
    decide (v.PerTryTimeout = other.PerTryTimeout) &&
    decide (v.TlsCert = other.TlsCert) &&
    decide (v.TlsKey = other.TlsKey)

def cluster.identity (c : cluster) : String :=
  c.Name

/-- The call `sort.Strings`. -/
def sortStrings (S : SliceSort) (l : List String) : List String :=
  S.sortSlice (fun x y => decide (x < y)) l

/-- The loop `for i, host := range c.Hosts` of `cluster.Equals`, run on the two
sorted slices; reading `other.Hosts[i]` past the end does not happen, the lengths
having been compared. -/
def hostsLoop : List String → List String → Bool
  | [], _ => true
  | _ :: _, [] => false
  | host :: hs, o :: os => if host ≠ o then false else hostsLoop hs os

def cluster.Equals (S : SliceSort) (c : cluster) (other : Option cluster) : Bool :=
  match other with
  | none => false
  | some other =>
    if c.Name ≠ other.Name then false
    else if c.Timeout ≠ other.Timeout then false
    else if c.VirtualHost ≠ other.VirtualHost then false
    else if c.HealthCheckPath ≠ other.HealthCheckPath then false
    else if c.Hosts.length ≠ other.Hosts.length then false
    else hostsLoop (sortStrings S c.Hosts) (sortStrings S other.Hosts)

def sortCluster (S : SliceSort) (clusters : List cluster) : List cluster :=
  S.sortSlice (fun x y => decide (x.identity < y.identity)) clusters

/-- The loop `for idx, cluster := range a` of `ClustersEquals`. -/
def clustersLoop (S : SliceSort) : List cluster → List cluster → Bool
  | [], _ => true
  | _ :: _, [] => false
  | c :: cs, o :: os => if !(c.Equals S (some o)) then false else clustersLoop S cs os

def ClustersEquals (S : SliceSort) (a b : List cluster) : Bool :=
  if a.length ≠ b.length then false
  else clustersLoop S (sortCluster S a) (sortCluster S b)

def sortVirtualHosts (S : SliceSort) (hosts : List virtualHost) : List virtualHost :=
  S.sortSlice (fun x y => decide (x.Host < y.Host)) hosts

/-- The loop `for idx, hosts := range a` of `VirtualHostsEquals`. -/
def virtualHostsLoop : List virtualHost → List virtualHost → Bool
  | [], _ => true
  | _ :: _, [] => false
  | v :: vs, o :: os => if !(v.Equals (some o)) then false else virtualHostsLoop vs os

def VirtualHostsEquals (S : SliceSort) (a b : List virtualHost) : Bool :=
  if a.length ≠ b.length then false
  else virtualHostsLoop (sortVirtualHosts S a) (sortVirtualHosts S b)

def envoyConfiguration.equals (S : SliceSort) (cfg : envoyConfiguration)
    (oldCfg : Option envoyConfiguration) : Bool × Bool :=
  match oldCfg with
  | none => (false, false)
  | some oldCfg =>
    (VirtualHostsEquals S cfg.VirtualHosts oldCfg.VirtualHosts,
      ClustersEquals S cfg.Clusters oldCfg.Clusters)

/-! ## Translation -/

/-- The call `strings.Replace(host, ".", "_", -1)`. -/
def replaceDots (host : String) : String :=
  ⟨host.data.map (fun ch => if ch = '.' then '_' else ch)⟩

def newEnvoyIngress (host : String) : envoyIngress :=
  let clusterName := replaceDots host
  { vhost :=
      { Host := host
        UpstreamCluster := clusterName
        Timeout := 15 * Second
        PerTryTimeout := 5 * Second
        TlsKey := ""
        TlsCert := "" }
    cluster :=
      { Name := clusterName
        VirtualHost := host
        Hosts := []
        Timeout := 30 * Second
        HealthCheckPath := "" } }

def envoyIngress.addUpstream (ing : envoyIngress) (host : String) : envoyIngress :=
  { ing with cluster := { ing.cluster with Hosts := ing.cluster.Hosts ++ [host] } }

def envoyIngress.addHealthCheckPath (ing : envoyIngress) (path : String) : envoyIngress :=
  { ing with cluster := { ing.cluster with HealthCheckPath := path } }

def envoyIngress.addTimeout (ing : envoyIngress) (timeout : Duration) : envoyIngress :=
  { vhost := { ing.vhost with Timeout := timeout, PerTryTimeout := timeout }
    cluster := { ing.cluster with Timeout := timeout } }

/-- The first TLS entry, in declaration order, one of whose hosts is `host`. -/
def getHostTlsSecret (ingress : Ingress) (host : String) : Option vhostSecret :=
  ingress.TLS.findSome? (fun tls =>
    tls.Hosts.findSome? (fun h =>
      if h = host then some ⟨tls.SecretName, ingress.Namespace⟩ else none))

/-- The loop `for _, secret := range secrets` of `injectDynamicTls`. -/
def secretsLoop (ing : envoyIngress) (ref : vhostSecret) : List Secret → envoyIngress
  | [] => ing
  | secret :: rest =>
    if secret.Namespace = ref.SecretNamespace ∧ secret.Name = ref.SecretName then
      match mapGet secret.Data "tls.crt", mapGet secret.Data "tls.key" with
      | some tlsCert, some tlsKey =>
        { ing with vhost := { ing.vhost with TlsCert := tlsCert, TlsKey := tlsKey } }
      | _, _ => secretsLoop ing ref rest
    else secretsLoop ing ref rest

def envoyIngress.injectDynamicTls (ing : envoyIngress)
    (vhostSecrets : List (String × vhostSecret)) (secrets : List Secret) : envoyIngress :=
  match mapGet vhostSecrets ing.vhost.Host with
  | none => ing
  | some ref => secretsLoop ing ref secrets

/-- The two maps that the first loop of `translateIngresses` fills. -/
structure translateState where
  envoyIngresses : List (String × envoyIngress)
  vhostSecrets : List (String × vhostSecret)
deriving DecidableEq

/-- What one pass of the innermost loop body does to the entry it has fetched. -/
def entryStep (parseDuration : String → Option Duration) (i : Ingress)
    (j : LoadBalancerIngress) (ing : envoyIngress) : envoyIngress :=
  let ing :=
    if j.Hostname ≠ "" then ing.addUpstream j.Hostname
    else ing.addUpstream j.IP
  let ing :=
    if i.annotation "yggdrasil.uswitch.com/healthcheck-path" ≠ "" then
      ing.addHealthCheckPath (i.annotation "yggdrasil.uswitch.com/healthcheck-path")
    else ing
  if i.annotation "yggdrasil.uswitch.com/timeout" ≠ "" then
    match parseDuration (i.annotation "yggdrasil.uswitch.com/timeout") with
    | some timeout => ing.addTimeout timeout
    | none => ing
  else ing

/-- The body of `for _, rule := range i.Spec.Rules`. The entry is reached through a
pointer held by the map, so the updates made to it are updates of the map. -/
def ruleStep (parseDuration : String → Option Duration) (i : Ingress)
    (j : LoadBalancerIngress) (st : translateState) (rule : IngressRule) : translateState :=
  let envoyIngresses :=
    match mapGet st.envoyIngresses rule.Host with
    | some _ => st.envoyIngresses
    | none => mapSet rule.Host (newEnvoyIngress rule.Host) st.envoyIngresses
  let ing := (mapGet envoyIngresses rule.Host).getD (newEnvoyIngress rule.Host)
  let vhostSecrets :=
    match getHostTlsSecret i rule.Host with
    | some hostTlsSecret => mapSet rule.Host hostTlsSecret st.vhostSecrets
    | none => st.vhostSecrets
  { envoyIngresses := mapSet rule.Host (entryStep parseDuration i j ing) envoyIngresses
    vhostSecrets := vhostSecrets }

/-- The body of `for _, i := range ingresses`. -/
def ingressStep (parseDuration : String → Option Duration) (st : translateState)
    (i : Ingress) : translateState :=
  i.LoadBalancer.foldl (fun st j => i.Rules.foldl (ruleStep parseDuration i j) st) st

/-- The first loop of `translateIngresses`. -/
def accumulate (parseDuration : String → Option Duration) (ingresses : List Ingress) :
    translateState :=
  ingresses.foldl (ingressStep parseDuration) ⟨[], []⟩

/-- The body of `for _, ingress := range envoyIngresses`. -/
def emitStep (vhostSecrets : List (String × vhostSecret)) (secrets : List Secret)
    (cfg : envoyConfiguration) (entry : String × envoyIngress) : envoyConfiguration :=
  let ingress := entry.2.injectDynamicTls vhostSecrets secrets
  { Clusters := cfg.Clusters ++ [ingress.cluster]
    VirtualHosts := cfg.VirtualHosts ++ [ingress.vhost] }

def translateIngresses (R : MapRange) (parseDuration : String → Option Duration)
    (ingresses : List Ingress) (secrets : List Secret) : envoyConfiguration :=
  let st := accumulate parseDuration ingresses
  (R.range st.envoyIngresses).foldl (emitStep st.vhostSecrets secrets) ⟨[], []⟩

/-! ## Instances of the library parameters -/

/-- A `range` that visits the entries in the order they were added. -/
def rangeInOrder : MapRange where
  range := fun m => m
  perm := fun m => List.Perm.refl m

/-- A `range` that visits the entries in the opposite order. -/
def rangeReversed : MapRange where
  range := fun m => m.reverse
  perm := fun m => List.reverse_perm m

/-- The inner loop of the library's `insertionSortLessFunc`: the element `x` moves
left past every element it is less than. The sorted prefix is given right to left. -/
def insertLeft {α : Type} (less : α → α → Bool) (x : α) : List α → List α
  | [] => [x]
  | y :: rest => if less x y then y :: insertLeft less x rest else x :: y :: rest

/-- The library's `insertionSortLessFunc`, which is what `sort.Slice` runs on a slice of
at most 12 elements. -/
def insertionSort {α : Type} (less : α → α → Bool) (l : List α) : List α :=
  (l.foldl (fun sortedRev x => insertLeft less x sortedRev) []).reverse

/-! ## Vocabulary of the properties -/

/-- The upstream target of an endpoint: its hostname when that is non-empty, its IP
otherwise. -/
def upstreamTarget (j : LoadBalancerIngress) : String :=
  if j.Hostname ≠ "" then j.Hostname else j.IP

/-- An ingress contributes to host `h` when it has at least one load-balancer endpoint
and a rule for `h`. -/
def contributes (i : Ingress) (h : String) : Bool :=
  !i.LoadBalancer.isEmpty && i.Rules.any (fun rule => decide (rule.Host = h))

/-- Host `h` is routed: it is the host of some rule of some ingress that has at least one
load-balancer endpoint. -/
def routed (ingresses : List Ingress) (h : String) : Prop :=
  ∃ i ∈ ingresses, i.LoadBalancer ≠ [] ∧ ∃ rule ∈ i.Rules, rule.Host = h

/-- Every (ingress, endpoint, rule) triple, in the order the three nested loops visit
them. -/
def allTriples (ingresses : List Ingress) :
    List (Ingress × LoadBalancerIngress × IngressRule) :=
  ingresses.flatMap (fun i =>
    i.LoadBalancer.flatMap (fun j => i.Rules.map (fun rule => (i, j, rule))))

/-- The triples whose rule is for host `h`. -/
def triplesFor (h : String) (ingresses : List Ingress) :
    List (Ingress × LoadBalancerIngress × IngressRule) :=
  (allTriples ingresses).filter (fun t => decide (t.2.2.Host = h))

/-- The upstream targets met when walking every (ingress, endpoint, rule with host `h`)
triple in input order. -/
def expectedHosts (h : String) (ingresses : List Ingress) : List String :=
  ingresses.flatMap (fun i =>
    i.LoadBalancer.flatMap (fun j =>
      (i.Rules.filter (fun rule => decide (rule.Host = h))).map (fun _ => upstreamTarget j)))

/-- The timeout an ingress asks for: the parsed value of its timeout annotation when that
is non-empty and parses. -/
def validTimeout (parseDuration : String → Option Duration) (i : Ingress) : Option Duration :=
  if i.annotation "yggdrasil.uswitch.com/timeout" ≠ "" then
    parseDuration (i.annotation "yggdrasil.uswitch.com/timeout")
  else none

/-- The health-check path an ingress asks for: its annotation when non-empty. -/
def healthCheckPathOf (i : Ingress) : Option String :=
  if i.annotation "yggdrasil.uswitch.com/healthcheck-path" ≠ "" then
    some (i.annotation "yggdrasil.uswitch.com/healthcheck-path")
  else none

/-- The value `f` gives for the last ingress, in input order, that contributes to `h`
and has one. -/
def lastContributing {β : Type} (f : Ingress → Option β) (h : String)
    (ingresses : List Ingress) : Option β :=
  ((ingresses.filter (fun i => contributes i h)).filterMap f).getLast?

/-- A secret that `injectDynamicTls` accepts for the reference `ref`: same namespace and
name, and both data fields present. -/
def secretServes (ref : vhostSecret) (secret : Secret) : Bool :=
  decide (secret.Namespace = ref.SecretNamespace) && decide (secret.Name = ref.SecretName) &&
    (mapGet secret.Data "tls.crt").isSome && (mapGet secret.Data "tls.key").isSome

/-- The entry `e` after the loop body has run for each of the triples `ts`, in closed
form: the upstream targets are appended, and the last health-check path and the last
valid timeout asked for replace the earlier values. -/
def entryAfter (parseDuration : String → Option Duration) (e : envoyIngress)
    (ts : List (Ingress × LoadBalancerIngress × IngressRule)) : envoyIngress :=
  let timeout := (ts.filterMap (fun t => validTimeout parseDuration t.1)).getLast?
  let path := (ts.filterMap (fun t => healthCheckPathOf t.1)).getLast?
  { vhost :=
      { e.vhost with
        Timeout := timeout.getD e.vhost.Timeout
        PerTryTimeout := timeout.getD e.vhost.PerTryTimeout }
    cluster :=
      { e.cluster with
        Hosts := e.cluster.Hosts ++ ts.map (fun t => upstreamTarget t.2.1)
        HealthCheckPath := path.getD e.cluster.HealthCheckPath
        Timeout := timeout.getD e.cluster.Timeout } }

/-- The entry that the first loop of `translateIngresses` builds for a routed host. -/
def hostEntry (parseDuration : String → Option Duration) (ingresses : List Ingress)
    (h : String) : envoyIngress :=
  entryAfter parseDuration (newEnvoyIngress h) (triplesFor h ingresses)

/-- The virtual host that `translateIngresses` publishes for a routed host. -/
def hostVhost (parseDuration : String → Option Duration) (ingresses : List Ingress)
    (secrets : List Secret) (h : String) : virtualHost :=
  ((hostEntry parseDuration ingresses h).injectDynamicTls
    (accumulate parseDuration ingresses).vhostSecrets secrets).vhost

/-- The secret reference recorded for host `h`: that of the last contributing ingress, in
input order, one of whose TLS entries lists `h`. -/
def recordedRef (h : String) (ingresses : List Ingress) : Option vhostSecret :=
  lastContributing (fun i => getHostTlsSecret i h) h ingresses

/-- The library's insertion sort meets the contract of `sort.Slice`. -/
def goInsertionSort : SliceSort where
  sortSlice := fun less l => insertionSort less l
  perm := by
    intro α less l
    have hins : ∀ (x : α) (acc : List α), (insertLeft less x acc).Perm (x :: acc) := by
      intro x acc
      induction acc with
      | nil => exact List.Perm.refl _
      | cons y rest ih =>
        unfold insertLeft
        by_cases hxy : less x y = true
        · rw [if_pos hxy]
          exact ((List.Perm.cons y ih).trans (List.Perm.swap x y rest))
        · rw [if_neg hxy]
    have hfold : ∀ (l acc : List α),
        (l.foldl (fun sortedRev x => insertLeft less x sortedRev) acc).Perm (l ++ acc) := by
      intro l
      induction l with
      | nil => intro acc; exact List.Perm.refl _
      | cons x rest ih =>
        intro acc
        rw [List.foldl_cons]
        refine (ih (insertLeft less x acc)).trans ?_
        refine (List.Perm.append_left rest (hins x acc)).trans ?_
        exact List.perm_middle
    unfold insertionSort
    refine (List.reverse_perm _).trans ?_
    simpa using hfold l []
  sorted := by
    intro α key l
    have hins : ∀ (x : α) (acc : List α),
        acc.Pairwise (fun a b => ¬ key a < key b) →
        (insertLeft (fun x y => decide (key x < key y)) x acc).Pairwise
          (fun a b => ¬ key a < key b) ∧
        ∀ z ∈ insertLeft (fun x y => decide (key x < key y)) x acc, z = x ∨ z ∈ acc := by
      intro x acc
      induction acc with
      | nil =>
        intro _
        simp [insertLeft]
      | cons y rest ih =>
        intro hacc
        rw [List.pairwise_cons] at hacc
        obtain ⟨ihp, ihm⟩ := ih hacc.2
        unfold insertLeft
        by_cases hxy : key x < key y
        · simp only [hxy, decide_True, if_true]
          constructor
          · rw [List.pairwise_cons]
            refine ⟨?_, ihp⟩
            intro z hz
            rcases ihm z hz with hzx | hzr
            · rw [hzx]
              exact lt_asymm hxy
            · exact hacc.1 z hzr
          · intro z hz
            rcases List.mem_cons.mp hz with hzy | hzi
            · exact Or.inr (List.mem_cons.mpr (Or.inl hzy))
            · rcases ihm z hzi with hzx | hzr
              · exact Or.inl hzx
              · exact Or.inr (List.mem_cons_of_mem y hzr)
        · simp only [hxy, decide_False, Bool.false_eq_true, if_false]
          constructor
          · rw [List.pairwise_cons, List.pairwise_cons]
            refine ⟨?_, hacc.1, hacc.2⟩
            intro z hz
            rcases List.mem_cons.mp hz with hzy | hzr
            · rw [hzy]
              exact hxy
            · have h1 : key z ≤ key y := not_lt.mp (hacc.1 z hzr)
              have h2 : key y ≤ key x := not_lt.mp hxy
              exact not_lt.mpr (le_trans h1 h2)
          · intro z hz
            rcases List.mem_cons.mp hz with hzx | hzr
            · exact Or.inl hzx
            · exact Or.inr hzr
    have hfold : ∀ (l acc : List α),
        acc.Pairwise (fun a b => ¬ key a < key b) →
        (l.foldl (fun sortedRev x => insertLeft (fun x y => decide (key x < key y)) x sortedRev)
          acc).Pairwise (fun a b => ¬ key a < key b) := by
      intro l
      induction l with
      | nil => intro acc hacc; exact hacc
      | cons x rest ih =>
        intro acc hacc
        rw [List.foldl_cons]
        exact ih _ (hins x acc hacc).1
    unfold insertionSort
    rw [List.pairwise_reverse]
    exact hfold l [] List.Pairwise.nil

/-- A stand-in for `time.ParseDuration` that reads the one duration used in the examples
and rejects everything else. -/
def parseSample : String → Option Duration :=
  fun s => if s = "2500ms" then some 2500000000 else none

/-- An ingress with two endpoints, one rule, a TLS entry and a timeout. -/
def svcIngress : Ingress :=
  { Name := "svc"
    Namespace := "ns1"
    Annotations := [("yggdrasil.uswitch.com/timeout", "2500ms")]
    TLS := [{ Hosts := ["svc.example.com"], SecretName := "s1" }]
    Rules := [{ Host := "svc.example.com" }]
    LoadBalancer := [{ IP := "", Hostname := "a.example.com" }, { IP := "1.2.3.4", Hostname := "" }] }

/-- The TLS secret that `svcIngress` refers to. -/
def s1Secret : Secret :=
  { Name := "s1"
    Namespace := "ns1"
    Data := [("tls.crt", "CERT"), ("tls.key", "KEY")] }

/-- An ingress whose two hosts get the same cluster name. -/
def clashIngress : Ingress :=
  { Name := "clash"
    Namespace := "ns1"
    Annotations := []
    TLS := []
    Rules := [{ Host := "a.b" }, { Host := "a_b" }]
    LoadBalancer := [{ IP := "10.0.0.1", Hostname := "" }] }

/-- An ingress with a health-check path and a timeout that does not parse. -/
def apiIngress : Ingress :=
  { Name := "api"
    Namespace := "ns2"
    Annotations :=
      [("yggdrasil.uswitch.com/healthcheck-path", "/healthz"),
        ("yggdrasil.uswitch.com/timeout", "notaduration")]
    TLS := []
    Rules := [{ Host := "api.example.com" }]
    LoadBalancer := [{ IP := "10.0.0.2", Hostname := "" }] }

/-- No two routed hosts are given the same cluster name. -/
def clusterNamesDistinct (ingresses : List Ingress) : Prop :=
  ∀ h₁ h₂, routed ingresses h₁ → routed ingresses h₂ →
    replaceDots h₁ = replaceDots h₂ → h₁ = h₂

/-! ## Filters -/

/-- The ingresses are appended in the inner loop, once for each entry of `ingressClass`
that the class annotation equals. The gauge `matchingIngresses` is left out. -/
def classFilter (ingresses : List Ingress) (ingressClass : List String) : List Ingress :=
  ingresses.foldl (fun is i =>
    ingressClass.foldl (fun is cls =>
      if i.annotation "kubernetes.io/ingress.class" = cls then is ++ [i] else is) is) []

/-- The loop `for _, k := range i.Spec.Rules` of `validIngressFilter`; both ways out of
it are `continue Ingress`. -/
def validRulesLoop (vi : List Ingress) (i : Ingress) : List IngressRule → List Ingress
  | [] => vi
  | k :: ks => if k.Host ≠ "" then vi ++ [i] else validRulesLoop vi i ks

/-- The loop `for _, j := range i.Status.LoadBalancer.Ingress` of `validIngressFilter`. -/
def validEndpointsLoop (vi : List Ingress) (i : Ingress) :
    List LoadBalancerIngress → List Ingress
  | [] => vi
  | j :: js =>
    if j.Hostname ≠ "" ∨ j.IP ≠ "" then validRulesLoop vi i i.Rules
    else validEndpointsLoop vi i js

def validIngressFilter (ingresses : List Ingress) : List Ingress :=
  ingresses.foldl (fun vi i => validEndpointsLoop vi i i.LoadBalancer) []

/-- An ingress that `validIngressFilter` is to retain: some load-balancer endpoint has a
non-empty hostname or IP, and some rule has a non-empty host. -/
def isValidIngress (i : Ingress) : Bool :=
  i.LoadBalancer.any (fun j => decide (j.Hostname ≠ "" ∨ j.IP ≠ "")) &&
    i.Rules.any (fun k => decide (k.Host ≠ ""))

/-- The class annotation of an ingress is one of the allow-listed names. -/
def classMatches (ingressClass : List String) (i : Ingress) : Bool :=
  decide (i.annotation "kubernetes.io/ingress.class" ∈ ingressClass)

/-- An ingress of class `nginx`. -/
def nginxIngress : Ingress :=
  { Name := "web"
    Namespace := "ns1"
    Annotations := [("kubernetes.io/ingress.class", "nginx")]
    TLS := []
    Rules := [{ Host := "web.example.com" }]
    LoadBalancer := [{ IP := "10.0.0.3", Hostname := "" }] }

/-- An ingress with two rules for the same host and one endpoint. -/
def twoRulesIngress : Ingress :=
  { Name := "paths"
    Namespace := "ns1"
    Annotations := []
    TLS := []
    Rules := [{ Host := "web.example.com" }, { Host := "web.example.com" }]
    LoadBalancer := [{ IP := "10.0.0.3", Hostname := "" }] }

/-! ## Secrets aggregator -/

/-- What `store.List()` hands out: an `interface{}` that is a `*v1.Secret` or something
else (of which only its printed form is used). -/
inductive StoreObject where
  | secret (s : Secret)
  | other (printed : String)
deriving DecidableEq

/-- The loop `for _, obj := range secrets` of `SecretsAggregator.List`. -/
def secretsStoreLoop (is : List Secret) : List StoreObject → Except String (List Secret)
  | [] => Except.ok is
  | StoreObject.secret s :: rest => secretsStoreLoop (is ++ [s]) rest
  | StoreObject.other printed :: _ => Except.error ("unexpected object in store: " ++ printed)

/-- The loop `for _, store := range i.stores` of `SecretsAggregator.List`. -/
def secretsStoresLoop (is : List Secret) : List (List StoreObject) → Except String (List Secret)
  | [] => Except.ok is
  | store :: rest =>
    match secretsStoreLoop is store with
    | Except.error e => Except.error e
    | Except.ok is => secretsStoresLoop is rest

/-- The method `SecretsAggregator.List`; the aggregator is the list of the contents of its
stores, in registration order. -/
def SecretsAggregator_List (stores : List (List StoreObject)) : Except String (List Secret) :=
  secretsStoresLoop [] stores

/-- The secret an object is, if it is one. -/
def StoreObject.asSecret : StoreObject → Option Secret
  | StoreObject.secret s => some s
  | StoreObject.other _ => none

/-! ## Snapshotter -/

/-- A call that `snapshot` makes on the configurator or on the serving cache. -/
inductive SnapshotCall (Snap : Type) where
  | generate (ingresses : List Ingress) (secrets : List Secret)
  | setSnapshot (node : String) (snapshot : Snap)

/-- The collaborators of a `Snapshotter`: the outcomes of the two `List()` calls, the
configurator's `Generate` and `NodeID`. -/
structure Snapshotter (Snap Err : Type) where
  listIngresses : Except Err (List Ingress)
  listSecrets : Except Err (List Secret)
  generate : List Ingress → List Secret → Snap
  nodeID : String

/-- The serving cache (node to snapshot) and the calls made so far. -/
structure SnapshotWorld (Snap : Type) where
  cache : List (String × Snap)
  calls : List (SnapshotCall Snap)

/-- The method `Snapshotter.snapshot`: the returned error (`none` is `nil`) and the world
after the call. The result of `SetSnapshot` is dropped, as in the source. -/
def Snapshotter.snapshot {Snap Err : Type} (s : Snapshotter Snap Err)
    (w : SnapshotWorld Snap) : Option Err × SnapshotWorld Snap :=
  match s.listIngresses, s.listSecrets with
  | Except.error err, _ => (some err, w)
  | Except.ok _, Except.error secErr => (some secErr, w)
  | Except.ok ingresses, Except.ok secrets =>
    let snapshot := s.generate ingresses secrets
    (none,
      { cache := mapSet s.nodeID snapshot w.cache
        calls := w.calls ++
          [SnapshotCall.generate ingresses secrets, SnapshotCall.setSnapshot s.nodeID snapshot] })

/-! ## Comparators, with the slices as the calls leave them

`sort.Slice` and `sort.Strings` sort in place, so the comparators write to the slices they
are given. The definitions below return, next to the result, the contents of those slices
after the call. The two configurations are taken not to share slices or clusters. -/

/-- The method `cluster.Equals` on a non-nil `other` (a nil `other` returns before any
write): the result, and the two clusters after the call. -/
def cluster.EqualsM (S : SliceSort) (c other : cluster) : Bool × cluster × cluster :=
  if c.Name ≠ other.Name then (false, c, other)
  else if c.Timeout ≠ other.Timeout then (false, c, other)
  else if c.VirtualHost ≠ other.VirtualHost then (false, c, other)
  else if c.HealthCheckPath ≠ other.HealthCheckPath then (false, c, other)
  else if c.Hosts.length ≠ other.Hosts.length then (false, c, other)
  else
    let c := { c with Hosts := sortStrings S c.Hosts }
    let other := { other with Hosts := sortStrings S other.Hosts }
    (hostsLoop c.Hosts other.Hosts, c, other)

/-- The loop of `ClustersEquals`, with the two slices after it. -/
def clustersLoopM (S : SliceSort) :
    List cluster → List cluster → Bool × List cluster × List cluster
  | [], bs => (true, [], bs)
  | c :: cs, [] => (false, c :: cs, [])
  | c :: cs, o :: os =>
    let r := c.EqualsM S o
    if !r.1 then (false, r.2.1 :: cs, r.2.2 :: os)
    else
      let rest := clustersLoopM S cs os
      (rest.1, r.2.1 :: rest.2.1, r.2.2 :: rest.2.2)

/-- The function `ClustersEquals`, with the two slices after the call. -/
def ClustersEqualsM (S : SliceSort) (a b : List cluster) :
    Bool × List cluster × List cluster :=
  if a.length ≠ b.length then (false, a, b)
  else clustersLoopM S (sortCluster S a) (sortCluster S b)

/-- The function `VirtualHostsEquals`, with the two slices after the call. -/
def VirtualHostsEqualsM (S : SliceSort) (a b : List virtualHost) :
    Bool × List virtualHost × List virtualHost :=
  if a.length ≠ b.length then (false, a, b)
  else
    (virtualHostsLoop (sortVirtualHosts S a) (sortVirtualHosts S b),
      sortVirtualHosts S a, sortVirtualHosts S b)

/-- The method `envoyConfiguration.equals` on a non-nil `oldCfg`: the result, and the two
configurations after the call. -/
def envoyConfiguration.equalsM (S : SliceSort) (cfg oldCfg : envoyConfiguration) :
    (Bool × Bool) × envoyConfiguration × envoyConfiguration :=
  let v := VirtualHostsEqualsM S cfg.VirtualHosts oldCfg.VirtualHosts
  let c := ClustersEqualsM S cfg.Clusters oldCfg.Clusters
  ((v.1, c.1),
    { VirtualHosts := v.2.1, Clusters := c.2.1 },
    { VirtualHosts := v.2.2, Clusters := c.2.2 })

/-- Two clusters that differ at most in the order of their `Hosts`. -/
def sameUpToHostOrder (c' c : cluster) : Prop :=
  c'.Name = c.Name ∧ c'.VirtualHost = c.VirtualHost ∧
    c'.HealthCheckPath = c.HealthCheckPath ∧ c'.Timeout = c.Timeout ∧ c'.Hosts.Perm c.Hosts

/-- A configuration whose virtual hosts and upstream targets are not in sorted order. -/
def unsortedCfg : envoyConfiguration :=
  { VirtualHosts :=
      [{ Host := "b", UpstreamCluster := "b", Timeout := 15 * Second,
          PerTryTimeout := 5 * Second, TlsKey := "", TlsCert := "" },
        { Host := "a", UpstreamCluster := "a", Timeout := 15 * Second,
          PerTryTimeout := 5 * Second, TlsKey := "", TlsCert := "" }]
    Clusters :=
      [{ Name := "b", VirtualHost := "b", HealthCheckPath := "", Timeout := 30 * Second,
          Hosts := ["y", "x"] },
        { Name := "a", VirtualHost := "a", HealthCheckPath := "", Timeout := 30 * Second,
          Hosts := ["x"] }] }

/-- A cluster with the upstream targets `a`, `a`, `b`. -/
def clusterAAB : cluster :=
  { Name := "svc", VirtualHost := "svc", HealthCheckPath := "", Timeout := 30 * Second,
    Hosts := ["a", "a", "b"] }

/-- The same cluster with the upstream targets `a`, `b`, `b`. -/
def clusterABB : cluster :=
  { Name := "svc", VirtualHost := "svc", HealthCheckPath := "", Timeout := 30 * Second,
    Hosts := ["a", "b", "b"] }

/-! ## Comparators: reflexivity and symmetry -/

theorem virtualHost_Equals_self (v : virtualHost) : v.Equals (some v) = true := by
  simp [virtualHost.Equals]

theorem virtualHost_Equals_comm (v o : virtualHost) :
    v.Equals (some o) = o.Equals (some v) := by
  rw [Bool.eq_iff_iff]
  simp only [virtualHost.Equals, Bool.and_eq_true, decide_eq_true_eq]
  constructor <;> (rintro ⟨⟨⟨⟨⟨h1, h2⟩, h3⟩, h4⟩, h5⟩, h6⟩; simp [h1, h2, h3, h4, h5, h6])

theorem hostsLoop_self (l : List String) : hostsLoop l l = true := by
  induction l with
  | nil => rfl
  | cons x xs ih => simp [hostsLoop, ih]

theorem hostsLoop_comm (a b : List String) (h : a.length = b.length) :
    hostsLoop a b = hostsLoop b a := by
  induction a generalizing b with
  | nil =>
    cases b with
    | nil => rfl
    | cons y ys => simp at h
  | cons x xs ih =>
    cases b with
    | nil => simp at h
    | cons y ys =>
      have hlen : xs.length = ys.length := by simpa using h
      by_cases hxy : x = y
      · subst hxy
        simp [hostsLoop, ih ys hlen]
      · have hyx : ¬ y = x := fun e => hxy e.symm
        simp [hostsLoop, hxy, hyx]

theorem sortStrings_length (S : SliceSort) (l : List String) :
    (sortStrings S l).length = l.length :=
  (S.perm _ l).length_eq

theorem cluster_Equals_self (S : SliceSort) (c : cluster) : c.Equals S (some c) = true := by
  simp [cluster.Equals, hostsLoop_self]

theorem cluster_Equals_comm (S : SliceSort) (c o : cluster) :
    c.Equals S (some o) = o.Equals S (some c) := by
  simp only [cluster.Equals]
  by_cases h1 : c.Name = o.Name
  · by_cases h2 : c.Timeout = o.Timeout
    · by_cases h3 : c.VirtualHost = o.VirtualHost
      · by_cases h4 : c.HealthCheckPath = o.HealthCheckPath
        · by_cases h5 : c.Hosts.length = o.Hosts.length
          · have hlen : (sortStrings S c.Hosts).length = (sortStrings S o.Hosts).length := by
              rw [sortStrings_length, sortStrings_length, h5]
            simp [h1, h2, h3, h4, h5, hostsLoop_comm _ _ hlen]
          · have h5b : ¬ o.Hosts.length = c.Hosts.length := fun e => h5 e.symm
            simp [h1, h2, h3, h4, h5, h5b]
        · have h4b : ¬ o.HealthCheckPath = c.HealthCheckPath := fun e => h4 e.symm
          simp [h1, h2, h3, h4, h4b]
      · have h3b : ¬ o.VirtualHost = c.VirtualHost := fun e => h3 e.symm
        simp [h1, h2, h3, h3b]
    · have h2b : ¬ o.Timeout = c.Timeout := fun e => h2 e.symm
      simp [h1, h2, h2b]
  · have h1b : ¬ o.Name = c.Name := fun e => h1 e.symm
    simp [h1, h1b]

theorem clustersLoop_self (S : SliceSort) (l : List cluster) : clustersLoop S l l = true := by
  induction l with
  | nil => rfl
  | cons x xs ih => simp [clustersLoop, ih, cluster_Equals_self]

theorem clustersLoop_comm (S : SliceSort) (a b : List cluster) (h : a.length = b.length) :
    clustersLoop S a b = clustersLoop S b a := by
  induction a generalizing b with
  | nil =>
    cases b with
    | nil => rfl
    | cons y ys => simp at h
  | cons x xs ih =>
    cases b with
    | nil => simp at h
    | cons y ys =>
      have hlen : xs.length = ys.length := by simpa using h
      simp only [clustersLoop]
      rw [cluster_Equals_comm S x y, ih ys hlen]

theorem virtualHostsLoop_self (l : List virtualHost) : virtualHostsLoop l l = true := by
  induction l with
  | nil => rfl
  | cons x xs ih => simp [virtualHostsLoop, ih, virtualHost_Equals_self]

theorem virtualHostsLoop_comm (a b : List virtualHost) (h : a.length = b.length) :
    virtualHostsLoop a b = virtualHostsLoop b a := by
  induction a generalizing b with
  | nil =>
    cases b with
    | nil => rfl
    | cons y ys => simp at h
  | cons x xs ih =>
    cases b with
    | nil => simp at h
    | cons y ys =>
      have hlen : xs.length = ys.length := by simpa using h
      simp only [virtualHostsLoop]
      rw [virtualHost_Equals_comm x y, ih ys hlen]

theorem ClustersEquals_self (S : SliceSort) (x : List cluster) :
    ClustersEquals S x x = true := by
  simp [ClustersEquals, clustersLoop_self]

theorem VirtualHostsEquals_self (S : SliceSort) (y : List virtualHost) :
    VirtualHostsEquals S y y = true := by
  simp [VirtualHostsEquals, virtualHostsLoop_self]

theorem ClustersEquals_comm (S : SliceSort) (a b : List cluster) :
    ClustersEquals S a b = ClustersEquals S b a := by
  unfold ClustersEquals
  by_cases h : a.length = b.length
  · have hlen : (sortCluster S a).length = (sortCluster S b).length :=
      ((S.perm _ a).length_eq.trans h).trans (S.perm _ b).length_eq.symm
    simp [h, clustersLoop_comm S _ _ hlen]
  · have hb : ¬ b.length = a.length := fun e => h e.symm
    simp [h, hb]

theorem VirtualHostsEquals_comm (S : SliceSort) (a b : List virtualHost) :
    VirtualHostsEquals S a b = VirtualHostsEquals S b a := by
  unfold VirtualHostsEquals
  by_cases h : a.length = b.length
  · have hlen : (sortVirtualHosts S a).length = (sortVirtualHosts S b).length :=
      ((S.perm _ a).length_eq.trans h).trans (S.perm _ b).length_eq.symm
    simp [h, virtualHostsLoop_comm _ _ hlen]
  · have hb : ¬ b.length = a.length := fun e => h e.symm
    simp [h, hb]

/-! ## Association lists -/

theorem mapGet_mapSet {β : Type} (k : String) (v : β) (m : List (String × β)) (k' : String) :
    mapGet (mapSet k v m) k' = if k = k' then some v else mapGet m k' := by
  induction m with
  | nil => simp [mapSet, mapGet]
  | cons kv rest ih =>
    obtain ⟨k0, v0⟩ := kv
    by_cases h0 : k0 = k
    · subst h0
      by_cases h1 : k0 = k' <;> simp [mapSet, mapGet, h1]
    · by_cases h1 : k0 = k'
      · subst h1
        have h2 : ¬ k = k0 := fun e => h0 e.symm
        simp [mapSet, mapGet, h0, h2]
      · simp [mapSet, mapGet, h0, h1, ih]

theorem mapGet_eq_none_iff {β : Type} (m : List (String × β)) (k : String) :
    mapGet m k = none ↔ k ∉ m.map Prod.fst := by
  induction m with
  | nil => simp [mapGet]
  | cons kv rest ih =>
    obtain ⟨k0, v0⟩ := kv
    by_cases h0 : k0 = k
    · simp [mapGet, h0]
    · have h1 : ¬ k = k0 := fun e => h0 e.symm
      simp [mapGet, h0, h1, ih]

theorem mapKeys_mapSet {β : Type} (k : String) (v : β) (m : List (String × β)) :
    (mapSet k v m).map Prod.fst =
      if k ∈ m.map Prod.fst then m.map Prod.fst else m.map Prod.fst ++ [k] := by
  induction m with
  | nil => simp [mapSet]
  | cons kv rest ih =>
    obtain ⟨k0, v0⟩ := kv
    by_cases h0 : k0 = k
    · simp [mapSet, h0]
    · have h1 : ¬ k = k0 := fun e => h0 e.symm
      simp only [mapSet, h0, if_false, List.map_cons, ih, List.mem_cons, h1, false_or]
      split <;> simp

theorem mapKeys_mapSet_nodup {β : Type} (k : String) (v : β) (m : List (String × β))
    (hm : (m.map Prod.fst).Nodup) : ((mapSet k v m).map Prod.fst).Nodup := by
  rw [mapKeys_mapSet]
  split
  · exact hm
  · rename_i hk
    exact List.Nodup.append hm (List.nodup_singleton k) (by simpa using hk)

theorem mem_iff_mapGet {β : Type} (m : List (String × β)) (hm : (m.map Prod.fst).Nodup)
    (k : String) (v : β) : (k, v) ∈ m ↔ mapGet m k = some v := by
  induction m with
  | nil => simp [mapGet]
  | cons kv rest ih =>
    obtain ⟨k0, v0⟩ := kv
    have hnd : k0 ∉ rest.map Prod.fst ∧ (rest.map Prod.fst).Nodup := by
      simpa using hm
    by_cases h0 : k0 = k
    · subst h0
      have hnot : ∀ w, (k0, w) ∉ rest := fun w hw =>
        hnd.1 (List.mem_map.mpr ⟨(k0, w), hw, rfl⟩)
      simp only [List.mem_cons, Prod.mk.injEq, true_and, mapGet, if_true, Option.some.injEq]
      constructor
      · rintro (h | h)
        · exact h.symm
        · exact absurd h (hnot v)
      · intro h
        exact Or.inl h.symm
    · have h1 : ¬ k = k0 := fun e => h0 e.symm
      simp [mapGet, h0, h1, ih hnd.2]

theorem nodup_of_nodup_keys {β : Type} (m : List (String × β))
    (hm : (m.map Prod.fst).Nodup) : m.Nodup :=
  List.Nodup.of_map Prod.fst hm

theorem perm_of_mapGet_eq {β : Type} (m₁ m₂ : List (String × β))
    (h₁ : (m₁.map Prod.fst).Nodup) (h₂ : (m₂.map Prod.fst).Nodup)
    (h : ∀ k, mapGet m₁ k = mapGet m₂ k) : m₁.Perm m₂ := by
  rw [List.perm_ext_iff_of_nodup (nodup_of_nodup_keys m₁ h₁) (nodup_of_nodup_keys m₂ h₂)]
  rintro ⟨k, v⟩
  rw [mem_iff_mapGet m₁ h₁, mem_iff_mapGet m₂ h₂, h k]

/-! ## The accumulation loop, one host at a time -/

theorem foldl_proj {σ α τ : Type} (f : σ → α → σ) (g : τ → α → τ) (π : σ → τ)
    (hstep : ∀ s a, π (f s a) = g (π s) a) (l : List α) (s : σ) :
    π (l.foldl f s) = l.foldl g (π s) := by
  induction l generalizing s with
  | nil => rfl
  | cons a rest ih => simp only [List.foldl_cons, ih, hstep]

theorem foldl_flatMap {σ α β : Type} (f : σ → β → σ) (g : α → List β) (l : List α) (s : σ) :
    (l.flatMap g).foldl f s = l.foldl (fun s a => (g a).foldl f s) s := by
  induction l generalizing s with
  | nil => rfl
  | cons a rest ih => simp only [List.flatMap_cons, List.foldl_append, List.foldl_cons, ih]

/-- The first loop of `translateIngresses` is one pass over the triples. -/
theorem accumulate_eq (p : String → Option Duration) (ingresses : List Ingress) :
    accumulate p ingresses =
      (allTriples ingresses).foldl (fun st t => ruleStep p t.1 t.2.1 st t.2.2) ⟨[], []⟩ := by
  unfold accumulate allTriples ingressStep
  rw [foldl_flatMap]
  congr 1
  funext st i
  rw [foldl_flatMap]
  congr 1
  funext st j
  rw [List.foldl_map]

theorem ruleStep_get (p : String → Option Duration) (i : Ingress) (j : LoadBalancerIngress)
    (st : translateState) (rule : IngressRule) (h : String) :
    mapGet (ruleStep p i j st rule).envoyIngresses h =
      if rule.Host = h then
        some (entryStep p i j ((mapGet st.envoyIngresses h).getD (newEnvoyIngress h)))
      else mapGet st.envoyIngresses h := by
  unfold ruleStep
  simp only [mapGet_mapSet]
  by_cases hh : rule.Host = h
  · subst hh
    cases hg : mapGet st.envoyIngresses rule.Host with
    | none => simp [mapGet_mapSet]
    | some e => simp [hg]
  · cases hg : mapGet st.envoyIngresses rule.Host with
    | none => simp [mapGet_mapSet, hh]
    | some e => simp [hh]

theorem ruleStep_getSecret (p : String → Option Duration) (i : Ingress)
    (j : LoadBalancerIngress) (st : translateState) (rule : IngressRule) (h : String) :
    mapGet (ruleStep p i j st rule).vhostSecrets h =
      if rule.Host = h then (getHostTlsSecret i h).or (mapGet st.vhostSecrets h)
      else mapGet st.vhostSecrets h := by
  unfold ruleStep
  by_cases hh : rule.Host = h
  · subst hh
    cases hg : getHostTlsSecret i rule.Host with
    | none => simp
    | some ref => simp [mapGet_mapSet]
  · cases hg : getHostTlsSecret i rule.Host with
    | none => simp [hh]
    | some ref => simp [mapGet_mapSet, hh]

theorem ruleStep_nodup (p : String → Option Duration) (i : Ingress) (j : LoadBalancerIngress)
    (st : translateState) (rule : IngressRule)
    (hst : (st.envoyIngresses.map Prod.fst).Nodup) :
    ((ruleStep p i j st rule).envoyIngresses.map Prod.fst).Nodup := by
  unfold ruleStep
  apply mapKeys_mapSet_nodup
  cases mapGet st.envoyIngresses rule.Host with
  | none => exact mapKeys_mapSet_nodup _ _ _ hst
  | some e => exact hst

theorem accumulate_nodup (p : String → Option Duration) (ingresses : List Ingress) :
    (((accumulate p ingresses).envoyIngresses).map Prod.fst).Nodup := by
  rw [accumulate_eq]
  have key : ∀ (ts : List (Ingress × LoadBalancerIngress × IngressRule)) (st : translateState),
      (st.envoyIngresses.map Prod.fst).Nodup →
      (((ts.foldl (fun st t => ruleStep p t.1 t.2.1 st t.2.2) st).envoyIngresses).map
        Prod.fst).Nodup := by
    intro ts
    induction ts with
    | nil => intro st hst; exact hst
    | cons t rest ih =>
      intro st hst
      exact ih _ (ruleStep_nodup p t.1 t.2.1 st t.2.2 hst)
  exact key _ _ (by simp)

theorem entryStep_eq (p : String → Option Duration) (i : Ingress) (j : LoadBalancerIngress)
    (e : envoyIngress) :
    entryStep p i j e =
      { vhost :=
          { e.vhost with
            Timeout := (validTimeout p i).getD e.vhost.Timeout
            PerTryTimeout := (validTimeout p i).getD e.vhost.PerTryTimeout }
        cluster :=
          { e.cluster with
            Hosts := e.cluster.Hosts ++ [upstreamTarget j]
            HealthCheckPath := (healthCheckPathOf i).getD e.cluster.HealthCheckPath
            Timeout := (validTimeout p i).getD e.cluster.Timeout } } := by
  unfold entryStep validTimeout healthCheckPathOf upstreamTarget
  by_cases h1 : j.Hostname = ""
  all_goals by_cases h2 : i.annotation "yggdrasil.uswitch.com/healthcheck-path" = ""
  all_goals by_cases h3 : i.annotation "yggdrasil.uswitch.com/timeout" = ""
  all_goals cases h4 : p (i.annotation "yggdrasil.uswitch.com/timeout")
  all_goals simp [h1, h2, h3, h4, envoyIngress.addUpstream, envoyIngress.addHealthCheckPath,
    envoyIngress.addTimeout]

theorem getLast?_filterMap_cons {α β : Type} (f : α → Option β) (a : α) (l : List α) (d : β) :
    (((a :: l).filterMap f).getLast?).getD d =
      ((l.filterMap f).getLast?).getD ((f a).getD d) := by
  cases h : f a with
  | none => simp [List.filterMap_cons, h]
  | some b => simp [List.filterMap_cons, h, List.getLast?_cons]

theorem foldl_entryStep (p : String → Option Duration)
    (ts : List (Ingress × LoadBalancerIngress × IngressRule)) (e : envoyIngress) :
    ts.foldl (fun e t => entryStep p t.1 t.2.1 e) e = entryAfter p e ts := by
  induction ts generalizing e with
  | nil => simp [entryAfter]
  | cons t rest ih =>
    rw [List.foldl_cons, ih]
    simp only [entryAfter, getLast?_filterMap_cons, entryStep_eq, List.map_cons,
      List.append_assoc, List.singleton_append]

theorem entryFold_eq (p : String → Option Duration) (h : String)
    (ts : List (Ingress × LoadBalancerIngress × IngressRule)) (acc : Option envoyIngress) :
    ts.foldl (fun acc t =>
        if t.2.2.Host = h then some (entryStep p t.1 t.2.1 (acc.getD (newEnvoyIngress h)))
        else acc) acc =
      if ts.filter (fun t => decide (t.2.2.Host = h)) = [] then acc
      else some (entryAfter p (acc.getD (newEnvoyIngress h))
        (ts.filter (fun t => decide (t.2.2.Host = h)))) := by
  induction ts generalizing acc with
  | nil => simp
  | cons t rest ih =>
    rw [List.foldl_cons, ih]
    by_cases hh : t.2.2.Host = h
    · simp only [hh, if_true, List.filter_cons, decide_True, Option.getD_some]
      rw [← foldl_entryStep, ← foldl_entryStep, List.foldl_cons]
      by_cases hr : rest.filter (fun t => decide (t.2.2.Host = h)) = []
      · simp [hr]
      · simp [hr]
    · have hf : (t :: rest).filter (fun t => decide (t.2.2.Host = h)) =
          rest.filter (fun t => decide (t.2.2.Host = h)) :=
        List.filter_cons_of_neg (by simpa using hh)
      rw [hf]
      simp [hh]

/-- The entry that the first loop leaves in the map for host `h`. -/
theorem accumulate_get (p : String → Option Duration) (ingresses : List Ingress) (h : String) :
    mapGet (accumulate p ingresses).envoyIngresses h =
      if triplesFor h ingresses = [] then none
      else some (entryAfter p (newEnvoyIngress h) (triplesFor h ingresses)) := by
  rw [accumulate_eq]
  rw [foldl_proj
    (fun (st : translateState) (t : Ingress × LoadBalancerIngress × IngressRule) =>
      ruleStep p t.1 t.2.1 st t.2.2)
    (fun acc t =>
      if t.2.2.Host = h then some (entryStep p t.1 t.2.1 (acc.getD (newEnvoyIngress h)))
      else acc)
    (fun st => mapGet st.envoyIngresses h)
    (fun st t => ruleStep_get p t.1 t.2.1 st t.2.2 h)]
  rw [entryFold_eq]
  simp [triplesFor, mapGet]

theorem secretFold_eq (h : String)
    (ts : List (Ingress × LoadBalancerIngress × IngressRule)) (acc : Option vhostSecret) :
    ts.foldl (fun acc t =>
        if t.2.2.Host = h then (getHostTlsSecret t.1 h).or acc else acc) acc =
      (((ts.filter (fun t => decide (t.2.2.Host = h))).filterMap
        (fun t => getHostTlsSecret t.1 h)).getLast?).or acc := by
  induction ts generalizing acc with
  | nil => simp
  | cons t rest ih =>
    rw [List.foldl_cons, ih]
    by_cases hh : t.2.2.Host = h
    · simp only [hh, if_true, List.filter_cons, decide_True]
      cases hg : getHostTlsSecret t.1 h with
      | none => simp [List.filterMap_cons, hg]
      | some ref =>
        simp only [List.filterMap_cons, hg, List.getLast?_cons, Option.or_some]
        cases ((rest.filter (fun t => decide (t.2.2.Host = h))).filterMap
          (fun t => getHostTlsSecret t.1 h)).getLast? <;> simp
    · have hf : (t :: rest).filter (fun t => decide (t.2.2.Host = h)) =
          rest.filter (fun t => decide (t.2.2.Host = h)) :=
        List.filter_cons_of_neg (by simpa using hh)
      rw [hf]
      simp [hh]

/-- The secret reference that the first loop leaves in the map for host `h`. -/
theorem accumulate_getSecret (p : String → Option Duration) (ingresses : List Ingress)
    (h : String) :
    mapGet (accumulate p ingresses).vhostSecrets h =
      ((triplesFor h ingresses).filterMap (fun t => getHostTlsSecret t.1 h)).getLast? := by
  rw [accumulate_eq]
  rw [foldl_proj
    (fun (st : translateState) (t : Ingress × LoadBalancerIngress × IngressRule) =>
      ruleStep p t.1 t.2.1 st t.2.2)
    (fun acc t => if t.2.2.Host = h then (getHostTlsSecret t.1 h).or acc else acc)
    (fun st => mapGet st.vhostSecrets h)
    (fun st t => ruleStep_getSecret p t.1 t.2.1 st t.2.2 h)]
  rw [secretFold_eq]
  simp [triplesFor, mapGet]

/-! ## From triples to ingresses -/

theorem mem_allTriples (ingresses : List Ingress)
    (t : Ingress × LoadBalancerIngress × IngressRule) :
    t ∈ allTriples ingresses ↔
      t.1 ∈ ingresses ∧ t.2.1 ∈ t.1.LoadBalancer ∧ t.2.2 ∈ t.1.Rules := by
  obtain ⟨i, j, rule⟩ := t
  simp only [allTriples, List.mem_flatMap, List.mem_map, Prod.mk.injEq]
  constructor
  · rintro ⟨i', hi, j', hj, r', hr, rfl, rfl, rfl⟩
    exact ⟨hi, hj, hr⟩
  · rintro ⟨hi, hj, hr⟩
    exact ⟨i, hi, j, hj, rule, hr, rfl, rfl, rfl⟩

theorem triplesFor_ne_nil_iff (h : String) (ingresses : List Ingress) :
    triplesFor h ingresses ≠ [] ↔ routed ingresses h := by
  unfold triplesFor routed
  constructor
  · intro hne
    obtain ⟨t, ht⟩ := List.exists_mem_of_ne_nil _ hne
    rw [List.mem_filter, mem_allTriples] at ht
    obtain ⟨⟨hi, hj, hr⟩, hh⟩ := ht
    exact ⟨t.1, hi, List.ne_nil_of_mem hj, t.2.2, hr, by simpa using hh⟩
  · rintro ⟨i, hi, hlb, rule, hr, hh⟩
    obtain ⟨j, hj⟩ := List.exists_mem_of_ne_nil _ hlb
    have hmem : (i, j, rule) ∈ (allTriples ingresses).filter
        (fun t => decide (t.2.2.Host = h)) := by
      rw [List.mem_filter, mem_allTriples]
      exact ⟨⟨hi, hj, hr⟩, by simpa using hh⟩
    exact List.ne_nil_of_mem hmem

theorem contributes_iff (i : Ingress) (h : String) :
    contributes i h = true ↔ i.LoadBalancer ≠ [] ∧ ∃ rule ∈ i.Rules, rule.Host = h := by
  simp [contributes, List.isEmpty_iff]

theorem routed_iff_contributes (ingresses : List Ingress) (h : String) :
    routed ingresses h ↔ ∃ i ∈ ingresses, contributes i h = true := by
  simp only [routed, contributes_iff]

theorem triplesFor_cons (h : String) (i : Ingress) (ingresses : List Ingress) :
    triplesFor h (i :: ingresses) = triplesFor h [i] ++ triplesFor h ingresses := by
  simp [triplesFor, allTriples]

theorem triplesFor_single_nil_iff (h : String) (i : Ingress) :
    triplesFor h [i] = [] ↔ contributes i h = false := by
  have h1 := triplesFor_ne_nil_iff h [i]
  have h2 := routed_iff_contributes [i] h
  by_cases hc : contributes i h = true
  · have : triplesFor h [i] ≠ [] := h1.mpr (h2.mpr ⟨i, by simp, hc⟩)
    simp [hc, this]
  · have : ¬ triplesFor h [i] ≠ [] := fun hne => by
      obtain ⟨i', hi', hc'⟩ := h2.mp (h1.mp hne)
      simp only [List.mem_singleton] at hi'
      subst hi'
      exact hc hc'
    simp only [ne_eq, not_not] at this
    simp [this, hc]

theorem expectedHosts_eq (h : String) (ingresses : List Ingress) :
    (triplesFor h ingresses).map (fun t => upstreamTarget t.2.1) = expectedHosts h ingresses := by
  simp only [triplesFor, allTriples, expectedHosts, List.filter_flatMap, List.map_flatMap,
    List.filter_map, List.map_map]
  rfl

theorem getLast?_filterMap_const {α β : Type} (f : α → Option β) (b : Option β) (l : List α)
    (hl : ∀ a ∈ l, f a = b) :
    (l.filterMap f).getLast? = if l.isEmpty then none else b := by
  induction l with
  | nil => simp
  | cons a rest ih =>
    have ha : f a = b := hl a (List.mem_cons_self a rest)
    have ih' := ih (fun x hx => hl x (List.mem_cons_of_mem a hx))
    cases b with
    | none =>
      simp only [List.filterMap_cons, ha, ih']
      simp
    | some d =>
      simp only [List.filterMap_cons, ha, List.getLast?_cons, ih']
      cases rest <;> simp

theorem last_triplesFor {β : Type} (f : Ingress → Option β) (h : String)
    (ingresses : List Ingress) :
    ((triplesFor h ingresses).filterMap (fun t => f t.1)).getLast? =
      lastContributing f h ingresses := by
  induction ingresses with
  | nil => simp [triplesFor, allTriples, lastContributing]
  | cons i rest ih =>
    rw [triplesFor_cons, List.filterMap_append, List.getLast?_append, ih]
    have hhead : ((triplesFor h [i]).filterMap (fun t => f t.1)).getLast? =
        if (triplesFor h [i]).isEmpty then none else f i := by
      apply getLast?_filterMap_const
      intro t ht
      have : t.1 ∈ [i] := ((mem_allTriples [i] t).mp (List.mem_filter.mp ht).1).1
      simp only [List.mem_singleton] at this
      rw [this]
    rw [hhead]
    unfold lastContributing
    by_cases hc : contributes i h = true
    · have hne : (triplesFor h [i]).isEmpty = false := by
        cases hT : triplesFor h [i] with
        | nil => rw [triplesFor_single_nil_iff] at hT; simp [hc] at hT
        | cons t ts => rfl
      have hf : (i :: rest).filter (fun i => contributes i h) =
          i :: rest.filter (fun i => contributes i h) :=
        List.filter_cons_of_pos (by simpa using hc)
      rw [hf]
      simp only [hne, Bool.false_eq_true, if_false]
      cases hfi : f i with
      | none => simp [List.filterMap_cons, hfi]
      | some d =>
        simp only [List.filterMap_cons, hfi, List.getLast?_cons]
        cases ((rest.filter (fun i => contributes i h)).filterMap f).getLast? <;> simp
    · have hnil : triplesFor h [i] = [] := by
        rw [triplesFor_single_nil_iff]; simpa using hc
      have hf : (i :: rest).filter (fun i => contributes i h) =
          rest.filter (fun i => contributes i h) :=
        List.filter_cons_of_neg (by simpa using hc)
      rw [hf]
      simp [hnil]

/-! ## The emission loop -/

theorem emit_foldl (vs : List (String × vhostSecret)) (secrets : List Secret)
    (l : List (String × envoyIngress)) (cfg : envoyConfiguration) :
    l.foldl (emitStep vs secrets) cfg =
      { VirtualHosts :=
          cfg.VirtualHosts ++ l.map (fun kv => (kv.2.injectDynamicTls vs secrets).vhost)
        Clusters :=
          cfg.Clusters ++ l.map (fun kv => (kv.2.injectDynamicTls vs secrets).cluster) } := by
  induction l generalizing cfg with
  | nil => simp
  | cons kv rest ih => simp [List.foldl_cons, ih, emitStep]

theorem secretsLoop_eq (e : envoyIngress) (ref : vhostSecret) (secrets : List Secret) :
    secretsLoop e ref secrets =
      match secrets.find? (secretServes ref) with
      | none => e
      | some s =>
        { e with vhost :=
            { e.vhost with
              TlsCert := (mapGet s.Data "tls.crt").getD ""
              TlsKey := (mapGet s.Data "tls.key").getD "" } } := by
  induction secrets with
  | nil => simp [secretsLoop]
  | cons s rest ih =>
    unfold secretsLoop
    by_cases h1 : s.Namespace = ref.SecretNamespace ∧ s.Name = ref.SecretName
    · cases hc : mapGet s.Data "tls.crt" with
      | none => simp [h1, hc, ih, List.find?_cons, secretServes]
      | some crt =>
        cases hk : mapGet s.Data "tls.key" with
        | none => simp [h1, hc, hk, ih, List.find?_cons, secretServes]
        | some key => simp [h1, hc, hk, List.find?_cons, secretServes]
    · have h2 : secretServes ref s = false := by
        simp only [secretServes, Bool.and_eq_false_iff, decide_eq_false_iff_not]
        by_cases hn : s.Namespace = ref.SecretNamespace
        · exact Or.inl (Or.inl (Or.inr (fun hm => h1 ⟨hn, hm⟩)))
        · exact Or.inl (Or.inl (Or.inl hn))
      simp [h1, ih, List.find?_cons, h2]

theorem injectDynamicTls_cluster (e : envoyIngress) (vs : List (String × vhostSecret))
    (secrets : List Secret) : (e.injectDynamicTls vs secrets).cluster = e.cluster := by
  unfold envoyIngress.injectDynamicTls
  cases mapGet vs e.vhost.Host with
  | none => rfl
  | some ref =>
    simp only [secretsLoop_eq]
    cases secrets.find? (secretServes ref) <;> rfl

theorem injectDynamicTls_vhost (e : envoyIngress) (vs : List (String × vhostSecret))
    (secrets : List Secret) :
    (e.injectDynamicTls vs secrets).vhost.Host = e.vhost.Host ∧
    (e.injectDynamicTls vs secrets).vhost.UpstreamCluster = e.vhost.UpstreamCluster ∧
    (e.injectDynamicTls vs secrets).vhost.Timeout = e.vhost.Timeout ∧
    (e.injectDynamicTls vs secrets).vhost.PerTryTimeout = e.vhost.PerTryTimeout := by
  unfold envoyIngress.injectDynamicTls
  cases mapGet vs e.vhost.Host with
  | none => simp
  | some ref =>
    simp only [secretsLoop_eq]
    cases secrets.find? (secretServes ref) <;> simp

theorem translate_VirtualHosts (R : MapRange) (p : String → Option Duration)
    (ingresses : List Ingress) (secrets : List Secret) :
    (translateIngresses R p ingresses secrets).VirtualHosts =
      (R.range (accumulate p ingresses).envoyIngresses).map (fun kv =>
        (kv.2.injectDynamicTls (accumulate p ingresses).vhostSecrets secrets).vhost) := by
  simp [translateIngresses, emit_foldl]

theorem translate_Clusters (R : MapRange) (p : String → Option Duration)
    (ingresses : List Ingress) (secrets : List Secret) :
    (translateIngresses R p ingresses secrets).Clusters =
      (R.range (accumulate p ingresses).envoyIngresses).map (fun kv => kv.2.cluster) := by
  simp [translateIngresses, emit_foldl, injectDynamicTls_cluster]

/-- The entries that `range` visits are the routed hosts, each with its entry. -/
theorem mem_range_iff (R : MapRange) (p : String → Option Duration)
    (ingresses : List Ingress) (kv : String × envoyIngress) :
    kv ∈ R.range (accumulate p ingresses).envoyIngresses ↔
      routed ingresses kv.1 ∧ kv.2 = hostEntry p ingresses kv.1 := by
  obtain ⟨k, e⟩ := kv
  rw [(R.perm _).mem_iff, mem_iff_mapGet _ (accumulate_nodup p ingresses), accumulate_get,
    ← triplesFor_ne_nil_iff]
  unfold hostEntry
  by_cases hT : triplesFor k ingresses = []
  · simp [hT]
  · simp only [hT, if_false, Option.some.injEq, ne_eq, not_false_eq_true, true_and]
    exact eq_comm

theorem hostEntry_fields (p : String → Option Duration) (ingresses : List Ingress)
    (h : String) :
    (hostEntry p ingresses h).vhost.Host = h ∧
    (hostEntry p ingresses h).vhost.UpstreamCluster = replaceDots h ∧
    (hostEntry p ingresses h).cluster.Name = replaceDots h ∧
    (hostEntry p ingresses h).cluster.VirtualHost = h ∧
    (hostEntry p ingresses h).vhost.TlsCert = "" ∧
    (hostEntry p ingresses h).vhost.TlsKey = "" := by
  simp [hostEntry, entryAfter, newEnvoyIngress]

theorem range_keys (R : MapRange) (p : String → Option Duration) (ingresses : List Ingress) :
    ((R.range (accumulate p ingresses).envoyIngresses).map Prod.fst).Nodup ∧
    ∀ h, h ∈ (R.range (accumulate p ingresses).envoyIngresses).map Prod.fst ↔
      routed ingresses h := by
  constructor
  · exact ((R.perm _).map Prod.fst).nodup_iff.mpr (accumulate_nodup p ingresses)
  · intro h
    rw [List.mem_map]
    constructor
    · rintro ⟨kv, hkv, rfl⟩
      exact ((mem_range_iff R p ingresses kv).mp hkv).1
    · intro hr
      exact ⟨(h, hostEntry p ingresses h),
        (mem_range_iff R p ingresses (h, hostEntry p ingresses h)).mpr ⟨hr, rfl⟩, rfl⟩

theorem VirtualHosts_keys (R : MapRange) (p : String → Option Duration)
    (ingresses : List Ingress) (secrets : List Secret) :
    (translateIngresses R p ingresses secrets).VirtualHosts.map (fun v => v.Host) =
      (R.range (accumulate p ingresses).envoyIngresses).map Prod.fst := by
  rw [translate_VirtualHosts, List.map_map]
  apply List.map_congr_left
  intro kv hkv
  have h2 := ((mem_range_iff R p ingresses kv).mp hkv).2
  simp only [Function.comp]
  rw [(injectDynamicTls_vhost _ _ _).1, h2, (hostEntry_fields p ingresses kv.1).1]

theorem Clusters_keys (R : MapRange) (p : String → Option Duration)
    (ingresses : List Ingress) (secrets : List Secret) :
    (translateIngresses R p ingresses secrets).Clusters.map (fun c => c.VirtualHost) =
      (R.range (accumulate p ingresses).envoyIngresses).map Prod.fst := by
  rw [translate_Clusters, List.map_map]
  apply List.map_congr_left
  intro kv hkv
  have h2 := ((mem_range_iff R p ingresses kv).mp hkv).2
  simp only [Function.comp]
  rw [h2, (hostEntry_fields p ingresses kv.1).2.2.2.1]

/-- The virtual hosts published for host `h`: none unless `h` is routed, and then
`hostVhost`. -/
theorem mem_VirtualHosts_iff (R : MapRange) (p : String → Option Duration)
    (ingresses : List Ingress) (secrets : List Secret) (v : virtualHost) :
    v ∈ (translateIngresses R p ingresses secrets).VirtualHosts ↔
      routed ingresses v.Host ∧ v = hostVhost p ingresses secrets v.Host := by
  rw [translate_VirtualHosts, List.mem_map]
  constructor
  · rintro ⟨kv, hkv, rfl⟩
    obtain ⟨hr, he⟩ := (mem_range_iff R p ingresses kv).mp hkv
    have hhost : (kv.2.injectDynamicTls (accumulate p ingresses).vhostSecrets
        secrets).vhost.Host = kv.1 := by
      rw [(injectDynamicTls_vhost _ _ _).1, he, (hostEntry_fields p ingresses kv.1).1]
    rw [hhost]
    exact ⟨hr, by rw [hostVhost, he]⟩
  · rintro ⟨hr, hv⟩
    refine ⟨(v.Host, hostEntry p ingresses v.Host), ?_, ?_⟩
    · exact (mem_range_iff R p ingresses _).mpr ⟨hr, rfl⟩
    · exact hv.symm

/-- The clusters published for host `h`: none unless `h` is routed, and then the cluster
of `hostEntry`. -/
theorem mem_Clusters_iff (R : MapRange) (p : String → Option Duration)
    (ingresses : List Ingress) (secrets : List Secret) (c : cluster) :
    c ∈ (translateIngresses R p ingresses secrets).Clusters ↔
      routed ingresses c.VirtualHost ∧ c = (hostEntry p ingresses c.VirtualHost).cluster := by
  rw [translate_Clusters, List.mem_map]
  constructor
  · rintro ⟨kv, hkv, rfl⟩
    obtain ⟨hr, he⟩ := (mem_range_iff R p ingresses kv).mp hkv
    have hhost : kv.2.cluster.VirtualHost = kv.1 := by
      rw [he, (hostEntry_fields p ingresses kv.1).2.2.2.1]
    rw [hhost]
    exact ⟨hr, by rw [he]⟩
  · rintro ⟨hr, hc⟩
    refine ⟨(c.VirtualHost, hostEntry p ingresses c.VirtualHost), ?_, ?_⟩
    · exact (mem_range_iff R p ingresses _).mpr ⟨hr, rfl⟩
    · exact hc.symm

theorem filter_length_eq_one {α : Type} (key : α → String) (l : List α)
    (hnd : (l.map key).Nodup) (h : String) (hmem : h ∈ l.map key) :
    (l.filter (fun x => decide (key x = h))).length = 1 := by
  induction l with
  | nil => simp at hmem
  | cons a rest ih =>
    have hnd' : key a ∉ rest.map key ∧ (rest.map key).Nodup := by simpa using hnd
    by_cases ha : key a = h
    · have hnone : rest.filter (fun x => decide (key x = h)) = [] := by
        rw [List.filter_eq_nil_iff]
        intro x hx hk
        apply hnd'.1
        rw [ha]
        exact List.mem_map.mpr ⟨x, hx, by simpa using hk⟩
      simp [List.filter_cons, ha, hnone]
    · have hmem' : h ∈ rest.map key := by
        simp only [List.map_cons, List.mem_cons] at hmem
        rcases hmem with hm | hm
        · exact absurd hm.symm ha
        · exact hm
      simp [List.filter_cons, ha, ih hnd'.2 hmem']

/-! ## Hosts and cluster names -/

theorem hostVhost_fields (p : String → Option Duration) (ingresses : List Ingress)
    (secrets : List Secret) (h : String) :
    (hostVhost p ingresses secrets h).Host = h ∧
    (hostVhost p ingresses secrets h).UpstreamCluster = replaceDots h ∧
    (hostVhost p ingresses secrets h).Timeout = (hostEntry p ingresses h).vhost.Timeout ∧
    (hostVhost p ingresses secrets h).PerTryTimeout =
      (hostEntry p ingresses h).vhost.PerTryTimeout := by
  unfold hostVhost
  have hi := injectDynamicTls_vhost (hostEntry p ingresses h)
    (accumulate p ingresses).vhostSecrets secrets
  have hf := hostEntry_fields p ingresses h
  exact ⟨hi.1.trans hf.1, hi.2.1.trans hf.2.1, hi.2.2.1, hi.2.2.2⟩

theorem VirtualHosts_upstreams (R : MapRange) (p : String → Option Duration)
    (ingresses : List Ingress) (secrets : List Secret) :
    (translateIngresses R p ingresses secrets).VirtualHosts.map (fun v => v.UpstreamCluster) =
      ((R.range (accumulate p ingresses).envoyIngresses).map Prod.fst).map replaceDots := by
  rw [← VirtualHosts_keys R p ingresses secrets, List.map_map]
  apply List.map_congr_left
  intro v hv
  have h2 := ((mem_VirtualHosts_iff R p ingresses secrets v).mp hv).2
  simp only [Function.comp]
  rw [h2, (hostVhost_fields p ingresses secrets v.Host).2.1,
    (hostVhost_fields p ingresses secrets v.Host).1]

theorem Clusters_names (R : MapRange) (p : String → Option Duration)
    (ingresses : List Ingress) (secrets : List Secret) :
    (translateIngresses R p ingresses secrets).Clusters.map (fun c => c.Name) =
      ((R.range (accumulate p ingresses).envoyIngresses).map Prod.fst).map replaceDots := by
  rw [← Clusters_keys R p ingresses secrets, List.map_map]
  apply List.map_congr_left
  intro c hc
  have h2 := ((mem_Clusters_iff R p ingresses secrets c).mp hc).2
  simp only [Function.comp]
  rw [h2, (hostEntry_fields p ingresses c.VirtualHost).2.2.1,
    (hostEntry_fields p ingresses c.VirtualHost).2.2.2.1]

theorem names_nodup (R : MapRange) (p : String → Option Duration) (ingresses : List Ingress)
    (hinj : clusterNamesDistinct ingresses) :
    (((R.range (accumulate p ingresses).envoyIngresses).map Prod.fst).map replaceDots).Nodup := by
  apply List.Nodup.map_on
  · intro a ha b hb hab
    exact hinj a b ((range_keys R p ingresses).2 a |>.mp ha)
      ((range_keys R p ingresses).2 b |>.mp hb) hab
  · exact (range_keys R p ingresses).1

theorem routed_svcIngress (h : String) : routed [svcIngress] h ↔ h = "svc.example.com" := by
  unfold routed
  constructor
  · rintro ⟨i, hi, _, rule, hr, rfl⟩
    simp only [List.mem_singleton] at hi
    subst hi
    simp only [svcIngress, List.mem_singleton] at hr
    rw [hr]
  · rintro rfl
    exact ⟨svcIngress, by simp, by simp [svcIngress], ⟨"svc.example.com"⟩,
      by simp [svcIngress], rfl⟩

theorem routed_sample (h : String) :
    routed [svcIngress, apiIngress] h ↔ h = "svc.example.com" ∨ h = "api.example.com" := by
  unfold routed
  constructor
  · rintro ⟨i, hi, _, rule, hr, rfl⟩
    simp only [List.mem_cons, List.mem_singleton, List.not_mem_nil, or_false] at hi
    rcases hi with rfl | rfl
    · simp only [svcIngress, List.mem_singleton] at hr
      rw [hr]; exact Or.inl rfl
    · simp only [apiIngress, List.mem_singleton] at hr
      rw [hr]; exact Or.inr rfl
  · rintro (rfl | rfl)
    · exact ⟨svcIngress, by simp, by simp [svcIngress], ⟨"svc.example.com"⟩,
        by simp [svcIngress], rfl⟩
    · exact ⟨apiIngress, by simp, by simp [apiIngress], ⟨"api.example.com"⟩,
        by simp [apiIngress], rfl⟩

theorem clusterNamesDistinct_sample : clusterNamesDistinct [svcIngress, apiIngress] := by
  intro h₁ h₂ r₁ r₂ he
  rcases (routed_sample h₁).mp r₁ with rfl | rfl <;>
    rcases (routed_sample h₂).mp r₂ with rfl | rfl
  · rfl
  · exact absurd he (by decide)
  · exact absurd he (by decide)
  · rfl

/-! ## Timeouts, upstream targets and TLS material of a host -/

theorem lastContributing_routed {β : Type} (f : Ingress → Option β) (h : String)
    (ingresses : List Ingress) (d : β) (hd : lastContributing f h ingresses = some d) :
    routed ingresses h := by
  unfold lastContributing at hd
  have hmem := List.mem_of_mem_getLast? hd
  rw [List.mem_filterMap] at hmem
  obtain ⟨i, hi, _⟩ := hmem
  rw [List.mem_filter] at hi
  exact (routed_iff_contributes ingresses h).mpr ⟨i, hi.1, hi.2⟩

theorem lastContributing_none {β : Type} (f : Ingress → Option β) (h : String)
    (ingresses : List Ingress)
    (hnone : ∀ i ∈ ingresses, contributes i h = true → f i = none) :
    lastContributing f h ingresses = none := by
  unfold lastContributing
  have : (ingresses.filter (fun i => contributes i h)).filterMap f = [] := by
    rw [List.filterMap_eq_nil_iff]
    intro i hi
    rw [List.mem_filter] at hi
    exact hnone i hi.1 hi.2
  rw [this]
  rfl

theorem hostEntry_values (p : String → Option Duration) (ingresses : List Ingress)
    (h : String) :
    (hostEntry p ingresses h).vhost.Timeout =
      (lastContributing (validTimeout p) h ingresses).getD (15 * Second) ∧
    (hostEntry p ingresses h).vhost.PerTryTimeout =
      (lastContributing (validTimeout p) h ingresses).getD (5 * Second) ∧
    (hostEntry p ingresses h).cluster.Timeout =
      (lastContributing (validTimeout p) h ingresses).getD (30 * Second) ∧
    (hostEntry p ingresses h).cluster.HealthCheckPath =
      (lastContributing healthCheckPathOf h ingresses).getD "" ∧
    (hostEntry p ingresses h).cluster.Hosts = expectedHosts h ingresses := by
  have h1 := last_triplesFor (validTimeout p) h ingresses
  have h2 := last_triplesFor healthCheckPathOf h ingresses
  have h3 := expectedHosts_eq h ingresses
  simp only [hostEntry, entryAfter, h1, h2, h3, newEnvoyIngress, List.nil_append, and_self]

theorem recordedRef_eq (p : String → Option Duration) (ingresses : List Ingress) (h : String) :
    mapGet (accumulate p ingresses).vhostSecrets h = recordedRef h ingresses := by
  rw [accumulate_getSecret, recordedRef, ← last_triplesFor]

theorem hostVhost_eq (p : String → Option Duration) (ingresses : List Ingress)
    (secrets : List Secret) (h : String) :
    hostVhost p ingresses secrets h =
      match recordedRef h ingresses with
      | none => (hostEntry p ingresses h).vhost
      | some ref =>
        match secrets.find? (secretServes ref) with
        | none => (hostEntry p ingresses h).vhost
        | some s =>
          { (hostEntry p ingresses h).vhost with
            TlsCert := (mapGet s.Data "tls.crt").getD ""
            TlsKey := (mapGet s.Data "tls.key").getD "" } := by
  unfold hostVhost envoyIngress.injectDynamicTls
  rw [(hostEntry_fields p ingresses h).1, recordedRef_eq]
  cases recordedRef h ingresses with
  | none => rfl
  | some ref =>
    simp only [secretsLoop_eq]
    cases secrets.find? (secretServes ref) <;> rfl

theorem getHostTlsSecret_eq (i : Ingress) (h : String) :
    getHostTlsSecret i h =
      (i.TLS.find? (fun tls => decide (h ∈ tls.Hosts))).map
        (fun tls => ⟨tls.SecretName, i.Namespace⟩) := by
  unfold getHostTlsSecret
  have inner : ∀ (hosts : List String) (ref : vhostSecret),
      hosts.findSome? (fun x => if x = h then some ref else none) =
        if h ∈ hosts then some ref else none := by
    intro hosts ref
    induction hosts with
    | nil => simp
    | cons x xs ih =>
      by_cases hx : x = h
      · simp [List.findSome?_cons, hx]
      · have hx' : ¬ h = x := fun e => hx e.symm
        simp [List.findSome?_cons, hx, hx', ih]
  induction i.TLS with
  | nil => simp
  | cons tls rest ih =>
    rw [List.findSome?_cons, inner, List.find?_cons]
    by_cases hm : h ∈ tls.Hosts
    · simp [hm]
    · simp [hm, ih]

/-! ## Each host is translated from its own ingresses -/

theorem triplesFor_filter (h : String) (ingresses : List Ingress) :
    triplesFor h (ingresses.filter (fun i => contributes i h)) = triplesFor h ingresses := by
  induction ingresses with
  | nil => rfl
  | cons i rest ih =>
    by_cases hc : contributes i h = true
    · rw [List.filter_cons_of_pos (by simpa using hc), triplesFor_cons, ih,
        ← triplesFor_cons]
    · rw [List.filter_cons_of_neg (by simpa using hc), ih, triplesFor_cons h i rest]
      have hnil : triplesFor h [i] = [] := by
        rw [triplesFor_single_nil_iff]; simpa using hc
      rw [hnil, List.nil_append]

theorem lastContributing_filter {β : Type} (f : Ingress → Option β) (h : String)
    (ingresses : List Ingress) :
    lastContributing f h (ingresses.filter (fun i => contributes i h)) =
      lastContributing f h ingresses := by
  unfold lastContributing
  rw [List.filter_filter]
  simp

theorem hostEntry_filter (p : String → Option Duration) (ingresses : List Ingress)
    (h : String) :
    hostEntry p (ingresses.filter (fun i => contributes i h)) h = hostEntry p ingresses h := by
  unfold hostEntry
  rw [triplesFor_filter]

theorem hostVhost_filter (p : String → Option Duration) (ingresses : List Ingress)
    (secrets : List Secret) (h : String) :
    hostVhost p (ingresses.filter (fun i => contributes i h)) secrets h =
      hostVhost p ingresses secrets h := by
  rw [hostVhost_eq, hostVhost_eq, hostEntry_filter, recordedRef, recordedRef,
    lastContributing_filter]

theorem routed_filter (ingresses : List Ingress) (h : String) :
    routed (ingresses.filter (fun i => contributes i h)) h ↔ routed ingresses h := by
  rw [← triplesFor_ne_nil_iff, ← triplesFor_ne_nil_iff, triplesFor_filter]

theorem hostVhost_mem (R : MapRange) (p : String → Option Duration)
    (ingresses : List Ingress) (secrets : List Secret) (h : String) (hr : routed ingresses h) :
    hostVhost p ingresses secrets h ∈ (translateIngresses R p ingresses secrets).VirtualHosts := by
  rw [mem_VirtualHosts_iff, (hostVhost_fields p ingresses secrets h).1]
  exact ⟨hr, rfl⟩

theorem hostCluster_mem (R : MapRange) (p : String → Option Duration)
    (ingresses : List Ingress) (secrets : List Secret) (h : String) (hr : routed ingresses h) :
    (hostEntry p ingresses h).cluster ∈ (translateIngresses R p ingresses secrets).Clusters := by
  rw [mem_Clusters_iff, (hostEntry_fields p ingresses h).2.2.2.1]
  exact ⟨hr, rfl⟩

theorem vhost_eq_of_mem (R : MapRange) (p : String → Option Duration)
    (ingresses : List Ingress) (secrets : List Secret) (h : String) (v : virtualHost)
    (hv : v ∈ (translateIngresses R p ingresses secrets).VirtualHosts) (hh : v.Host = h) :
    v = hostVhost p ingresses secrets h := by
  rw [← hh]
  exact ((mem_VirtualHosts_iff R p ingresses secrets v).mp hv).2

theorem cluster_eq_of_mem (R : MapRange) (p : String → Option Duration)
    (ingresses : List Ingress) (secrets : List Secret) (h : String) (c : cluster)
    (hc : c ∈ (translateIngresses R p ingresses secrets).Clusters) (hh : c.VirtualHost = h) :
    c = (hostEntry p ingresses h).cluster := by
  rw [← hh]
  exact ((mem_Clusters_iff R p ingresses secrets c).mp hc).2

theorem recordedRef_single (i : Ingress) (h : String) (hc : contributes i h = true) :
    recordedRef h [i] = getHostTlsSecret i h := by
  unfold recordedRef lastContributing
  rw [List.filter_cons_of_pos (by simpa using hc)]
  cases hg : getHostTlsSecret i h <;> simp [List.filterMap_cons, hg]

theorem secretServes_data (ref : vhostSecret) (s : Secret) (hs : secretServes ref s = true) :
    some ((mapGet s.Data "tls.crt").getD "") = mapGet s.Data "tls.crt" ∧
    some ((mapGet s.Data "tls.key").getD "") = mapGet s.Data "tls.key" := by
  simp only [secretServes, Bool.and_eq_true] at hs
  obtain ⟨⟨_, hcrt⟩, hkey⟩ := hs
  cases h1 : mapGet s.Data "tls.crt" with
  | none => simp [h1] at hcrt
  | some crt =>
    cases h2 : mapGet s.Data "tls.key" with
    | none => simp [h2] at hkey
    | some key => simp

/-! ## Sorting lists with distinct keys -/

theorem sortSlice_eq_of_perm {α : Type} (S : SliceSort) (key : α → String) (a b : List α)
    (hperm : a.Perm b) (hnd : (a.map key).Nodup) :
    S.sortSlice (fun x y => decide (key x < key y)) a =
      S.sortSlice (fun x y => decide (key x < key y)) b := by
  have strict : ∀ l : List α, l.Perm a →
      (S.sortSlice (fun x y => decide (key x < key y)) l).Pairwise
        (fun x y => key x < key y) := by
    intro l hl
    have hp := (S.perm (fun x y => decide (key x < key y)) l).trans hl
    have hnd' : ((S.sortSlice (fun x y => decide (key x < key y)) l).map key).Nodup :=
      (hp.map key).nodup_iff.mpr hnd
    have hne : (S.sortSlice (fun x y => decide (key x < key y)) l).Pairwise
        (fun x y => key x ≠ key y) := by
      unfold List.Nodup at hnd'
      rwa [List.pairwise_map] at hnd'
    refine ((S.sorted key l).and hne).imp ?_
    intro x y hxy
    exact lt_of_le_of_ne (not_lt.mp hxy.1) hxy.2
  have hanti : IsAntisymm α (fun x y => key x < key y) :=
    ⟨fun x y h1 h2 => absurd h2 (lt_asymm h1)⟩
  have hpp : (S.sortSlice (fun x y => decide (key x < key y)) a).Perm
      (S.sortSlice (fun x y => decide (key x < key y)) b) :=
    ((S.perm _ a).trans hperm).trans (S.perm _ b).symm
  exact List.eq_of_perm_of_sorted hpp (strict a (List.Perm.refl a)) (strict b hperm.symm)

theorem VirtualHostsEquals_of_perm (S : SliceSort) (a b : List virtualHost)
    (hperm : a.Perm b) (hnd : (a.map (fun v => v.Host)).Nodup) :
    VirtualHostsEquals S a b = true := by
  unfold VirtualHostsEquals sortVirtualHosts
  rw [sortSlice_eq_of_perm S (fun v => v.Host) a b hperm hnd]
  simp [hperm.length_eq, virtualHostsLoop_self]

theorem ClustersEquals_of_perm (S : SliceSort) (a b : List cluster)
    (hperm : a.Perm b) (hnd : (a.map (fun c => c.Name)).Nodup) :
    ClustersEquals S a b = true := by
  unfold ClustersEquals sortCluster
  have hs := sortSlice_eq_of_perm S (fun c => c.identity) a b hperm hnd
  rw [hs]
  simp [hperm.length_eq, clustersLoop_self]

/-! ## Two translations of equally ordered inputs -/

theorem routed_congr (l₁ l₂ : List Ingress)
    (horder : ∀ h, l₁.filter (fun i => contributes i h) = l₂.filter (fun i => contributes i h))
    (h : String) : routed l₁ h ↔ routed l₂ h := by
  rw [← routed_filter l₁ h, ← routed_filter l₂ h, horder h]

theorem VirtualHosts_nodup (R : MapRange) (p : String → Option Duration)
    (ingresses : List Ingress) (secrets : List Secret) :
    ((translateIngresses R p ingresses secrets).VirtualHosts.map (fun v => v.Host)).Nodup := by
  rw [VirtualHosts_keys]
  exact (range_keys R p ingresses).1

theorem Clusters_nodup (R : MapRange) (p : String → Option Duration)
    (ingresses : List Ingress) (secrets : List Secret) :
    ((translateIngresses R p ingresses secrets).Clusters.map (fun c => c.VirtualHost)).Nodup := by
  rw [Clusters_keys]
  exact (range_keys R p ingresses).1

theorem VirtualHosts_perm (R₁ R₂ : MapRange) (p : String → Option Duration)
    (l₁ l₂ : List Ingress) (secrets : List Secret)
    (horder : ∀ h, l₁.filter (fun i => contributes i h) = l₂.filter (fun i => contributes i h)) :
    (translateIngresses R₁ p l₁ secrets).VirtualHosts.Perm
      (translateIngresses R₂ p l₂ secrets).VirtualHosts := by
  rw [List.perm_ext_iff_of_nodup
    (List.Nodup.of_map _ (VirtualHosts_nodup R₁ p l₁ secrets))
    (List.Nodup.of_map _ (VirtualHosts_nodup R₂ p l₂ secrets))]
  intro v
  rw [mem_VirtualHosts_iff, mem_VirtualHosts_iff, routed_congr l₁ l₂ horder,
    ← hostVhost_filter p l₁, ← hostVhost_filter p l₂, horder]

theorem Clusters_perm (R₁ R₂ : MapRange) (p : String → Option Duration)
    (l₁ l₂ : List Ingress) (secrets : List Secret)
    (horder : ∀ h, l₁.filter (fun i => contributes i h) = l₂.filter (fun i => contributes i h)) :
    (translateIngresses R₁ p l₁ secrets).Clusters.Perm
      (translateIngresses R₂ p l₂ secrets).Clusters := by
  rw [List.perm_ext_iff_of_nodup
    (List.Nodup.of_map _ (Clusters_nodup R₁ p l₁ secrets))
    (List.Nodup.of_map _ (Clusters_nodup R₂ p l₂ secrets))]
  intro c
  rw [mem_Clusters_iff, mem_Clusters_iff, routed_congr l₁ l₂ horder,
    ← hostEntry_filter p l₁, ← hostEntry_filter p l₂, horder]

/-- The virtual hosts of two translations of equally ordered inputs always compare equal. -/
theorem VirtualHostsEquals_translate (S : SliceSort) (R₁ R₂ : MapRange)
    (p : String → Option Duration) (l₁ l₂ : List Ingress) (secrets : List Secret)
    (horder : ∀ h, l₁.filter (fun i => contributes i h) = l₂.filter (fun i => contributes i h)) :
    VirtualHostsEquals S (translateIngresses R₁ p l₁ secrets).VirtualHosts
      (translateIngresses R₂ p l₂ secrets).VirtualHosts = true :=
  VirtualHostsEquals_of_perm S _ _ (VirtualHosts_perm R₁ R₂ p l₁ l₂ secrets horder)
    (VirtualHosts_nodup R₁ p l₁ secrets)

theorem order_sample (h : String) :
    [svcIngress, apiIngress].filter (fun i => contributes i h) =
      [apiIngress, svcIngress].filter (fun i => contributes i h) := by
  by_cases h1 : h = "svc.example.com"
  · subst h1; decide
  · by_cases h2 : h = "api.example.com"
    · subst h2; decide
    · have h1' : ¬ "svc.example.com" = h := fun e => h1 e.symm
      have h2' : ¬ "api.example.com" = h := fun e => h2 e.symm
      simp [List.filter_cons, contributes, svcIngress, apiIngress, h1', h2']

/-! ## Host names without underscores -/

theorem replaceDots_injOn (s t : String) (hs : '_' ∉ s.data) (ht : '_' ∉ t.data)
    (h : replaceDots s = replaceDots t) : s = t := by
  have hdata : s.data.map (fun ch => if ch = '.' then '_' else ch) =
      t.data.map (fun ch => if ch = '.' then '_' else ch) := by
    unfold replaceDots at h
    exact congrArg String.data h
  have key : ∀ (a b : List Char), '_' ∉ a → '_' ∉ b →
      a.map (fun ch => if ch = '.' then '_' else ch) =
        b.map (fun ch => if ch = '.' then '_' else ch) → a = b := by
    intro a
    induction a with
    | nil =>
      intro b _ _ hab
      cases b with
      | nil => rfl
      | cons y ys => simp at hab
    | cons x xs ih =>
      intro b ha hb hab
      cases b with
      | nil => simp at hab
      | cons y ys =>
        simp only [List.map_cons, List.cons.injEq] at hab
        simp only [List.mem_cons, not_or] at ha hb
        have hxy : x = y := by
          have h1 := hab.1
          by_cases hx : x = '.'
          · by_cases hy : y = '.'
            · rw [hx, hy]
            · simp only [hx, hy, if_true, if_false] at h1
              exact absurd h1 hb.1
          · by_cases hy : y = '.'
            · simp only [hx, hy, if_true, if_false] at h1
              exact absurd h1.symm ha.1
            · simpa [hx, hy] using h1
        rw [hxy, ih ys ha.2 hb.2 hab.2]
  exact String.ext (key s.data t.data hs ht hdata)

/-- Host names without an underscore, as DNS names are, get pairwise distinct cluster
names. -/
theorem clusterNamesDistinct_of_no_underscore (ingresses : List Ingress)
    (hno : ∀ i ∈ ingresses, ∀ rule ∈ i.Rules, '_' ∉ rule.Host.data) :
    clusterNamesDistinct ingresses := by
  rintro h₁ h₂ ⟨i₁, hi₁, _, r₁, hr₁, rfl⟩ ⟨i₂, hi₂, _, r₂, hr₂, rfl⟩ he
  exact replaceDots_injOn _ _ (hno i₁ hi₁ r₁ hr₁) (hno i₂ hi₂ r₂ hr₂) he

/-! ## What `cluster.Equals` decides -/

theorem hostsLoop_eq_true_iff (a b : List String) (h : a.length = b.length) :
    hostsLoop a b = true ↔ a = b := by
  induction a generalizing b with
  | nil =>
    cases b with
    | nil => simp [hostsLoop]
    | cons y ys => simp at h
  | cons x xs ih =>
    cases b with
    | nil => simp at h
    | cons y ys =>
      have hlen : xs.length = ys.length := by simpa using h
      by_cases hxy : x = y
      · simp [hostsLoop, hxy, ih ys hlen]
      · simp [hostsLoop, hxy]

theorem sortStrings_sorted (S : SliceSort) (l : List String) :
    (sortStrings S l).Pairwise (fun x y => ¬ y < x) :=
  S.sorted (fun x => x) l

theorem sortStrings_eq_iff_perm (S : SliceSort) (x y : List String) :
    sortStrings S x = sortStrings S y ↔ x.Perm y := by
  constructor
  · intro h
    have hx : (sortStrings S x).Perm x := S.perm _ x
    have hy : (sortStrings S y).Perm y := S.perm _ y
    rw [h] at hx
    exact hx.symm.trans hy
  · intro h
    have hanti : IsAntisymm String (fun x y => ¬ y < x) :=
      ⟨fun a b h1 h2 => le_antisymm (not_lt.mp h1) (not_lt.mp h2)⟩
    have hp : (sortStrings S x).Perm (sortStrings S y) :=
      ((S.perm _ x).trans h).trans (S.perm _ y).symm
    exact List.eq_of_perm_of_sorted hp (sortStrings_sorted S x) (sortStrings_sorted S y)

theorem cluster_Equals_iff (S : SliceSort) (c o : cluster) :
    c.Equals S (some o) = true ↔
      c.Name = o.Name ∧ c.VirtualHost = o.VirtualHost ∧
        c.HealthCheckPath = o.HealthCheckPath ∧ c.Timeout = o.Timeout ∧
        c.Hosts.Perm o.Hosts := by
  simp only [cluster.Equals]
  by_cases h1 : c.Name = o.Name
  · by_cases h2 : c.Timeout = o.Timeout
    · by_cases h3 : c.VirtualHost = o.VirtualHost
      · by_cases h4 : c.HealthCheckPath = o.HealthCheckPath
        · by_cases h5 : c.Hosts.length = o.Hosts.length
          · have hlen : (sortStrings S c.Hosts).length = (sortStrings S o.Hosts).length := by
              rw [sortStrings_length, sortStrings_length, h5]
            simp [h1, h2, h3, h4, h5, hostsLoop_eq_true_iff _ _ hlen, sortStrings_eq_iff_perm]
          · have hp : ¬ c.Hosts.Perm o.Hosts := fun hp => h5 hp.length_eq
            simp [h1, h2, h3, h4, h5, hp]
        · simp [h1, h2, h3, h4]
      · simp [h1, h2, h3]
    · simp [h1, h2]
  · simp [h1]

/-! ## The two filters -/

theorem classFilter_inner (i : Ingress) (a : String) (cs : List String) (is : List Ingress) :
    cs.foldl (fun is cls => if a = cls then is ++ [i] else is) is =
      is ++ List.replicate (cs.count a) i := by
  induction cs generalizing is with
  | nil => simp
  | cons c rest ih =>
    rw [List.foldl_cons, ih]
    by_cases hc : a = c
    · subst hc
      simp [List.replicate_succ]
    · have hc' : ¬ c = a := fun e => hc e.symm
      simp [hc, List.count_cons, hc']

theorem classFilter_eq_flatMap (ingresses : List Ingress) (ingressClass : List String) :
    classFilter ingresses ingressClass =
      ingresses.flatMap (fun i =>
        List.replicate (ingressClass.count (i.annotation "kubernetes.io/ingress.class")) i) := by
  unfold classFilter
  have key : ∀ (l : List Ingress) (acc : List Ingress),
      l.foldl (fun is i =>
        ingressClass.foldl (fun is cls =>
          if i.annotation "kubernetes.io/ingress.class" = cls then is ++ [i] else is) is) acc =
      acc ++ l.flatMap (fun i =>
        List.replicate (ingressClass.count (i.annotation "kubernetes.io/ingress.class")) i) := by
    intro l
    induction l with
    | nil => intro acc; simp
    | cons i rest ih =>
      intro acc
      rw [List.foldl_cons, ih, classFilter_inner]
      simp [List.flatMap_cons]
  simpa using key ingresses []

/-- With an allow-list free of repetitions `classFilter` is the order-preserving filter. -/
theorem classFilter_eq_filter_of_nodup (ingresses : List Ingress) (ingressClass : List String)
    (hnd : ingressClass.Nodup) :
    classFilter ingresses ingressClass = ingresses.filter (classMatches ingressClass) := by
  rw [classFilter_eq_flatMap]
  induction ingresses with
  | nil => rfl
  | cons i rest ih =>
    rw [List.flatMap_cons, ih]
    by_cases hm : i.annotation "kubernetes.io/ingress.class" ∈ ingressClass
    · have hcount := List.count_eq_one_of_mem hnd hm
      have hp : classMatches ingressClass i = true := by simpa [classMatches] using hm
      rw [hcount, List.filter_cons_of_pos hp]
      rfl
    · have hcount := List.count_eq_zero_of_not_mem hm
      have hp : ¬ classMatches ingressClass i = true := by simpa [classMatches] using hm
      rw [hcount, List.filter_cons_of_neg hp]
      rfl

theorem validRulesLoop_eq (vi : List Ingress) (i : Ingress) (rules : List IngressRule) :
    validRulesLoop vi i rules =
      if rules.any (fun k => decide (k.Host ≠ "")) then vi ++ [i] else vi := by
  induction rules with
  | nil => simp [validRulesLoop]
  | cons k ks ih =>
    unfold validRulesLoop
    by_cases hk : k.Host = ""
    · simp [hk, ih]
    · simp [hk]

theorem validEndpointsLoop_eq (vi : List Ingress) (i : Ingress)
    (lb : List LoadBalancerIngress) :
    validEndpointsLoop vi i lb =
      if lb.any (fun j => decide (j.Hostname ≠ "" ∨ j.IP ≠ "")) then
        validRulesLoop vi i i.Rules
      else vi := by
  induction lb with
  | nil => simp [validEndpointsLoop]
  | cons j js ih =>
    unfold validEndpointsLoop
    by_cases hj : j.Hostname ≠ "" ∨ j.IP ≠ ""
    · simp [hj]
    · rw [if_neg hj, ih]
      simp [hj]

theorem validIngressFilter_eq_filter (ingresses : List Ingress) :
    validIngressFilter ingresses = ingresses.filter isValidIngress := by
  unfold validIngressFilter
  have key : ∀ (l : List Ingress) (acc : List Ingress),
      l.foldl (fun vi i => validEndpointsLoop vi i i.LoadBalancer) acc =
        acc ++ l.filter isValidIngress := by
    intro l
    induction l with
    | nil => intro acc; simp
    | cons i rest ih =>
      intro acc
      rw [List.foldl_cons, ih, validEndpointsLoop_eq, validRulesLoop_eq]
      have hv : isValidIngress i =
          (i.LoadBalancer.any (fun j => decide (j.Hostname ≠ "" ∨ j.IP ≠ "")) &&
            i.Rules.any (fun k => decide (k.Host ≠ ""))) := rfl
      rw [List.filter_cons, hv]
      cases i.LoadBalancer.any (fun j => decide (j.Hostname ≠ "" ∨ j.IP ≠ "")) <;>
        cases i.Rules.any (fun k => decide (k.Host ≠ "")) <;> simp
  simpa using key ingresses []

/-! ## The secrets aggregator -/

theorem secretsStoreLoop_ok (is : List Secret) (store : List StoreObject)
    (hall : ∀ obj ∈ store, obj.asSecret ≠ none) :
    secretsStoreLoop is store = Except.ok (is ++ store.filterMap StoreObject.asSecret) := by
  induction store generalizing is with
  | nil => simp [secretsStoreLoop]
  | cons obj rest ih =>
    cases obj with
    | secret s =>
      rw [secretsStoreLoop, ih _ (fun o ho => hall o (List.mem_cons_of_mem _ ho))]
      simp [StoreObject.asSecret]
    | other printed =>
      exact absurd rfl (hall (StoreObject.other printed) (List.mem_cons_self _ _))

theorem secretsStoreLoop_error (is : List Secret) (store : List StoreObject)
    (hbad : ∃ obj ∈ store, obj.asSecret = none) :
    ∃ e, secretsStoreLoop is store = Except.error e := by
  induction store generalizing is with
  | nil => simp at hbad
  | cons obj rest ih =>
    cases obj with
    | secret s =>
      rw [secretsStoreLoop]
      apply ih
      obtain ⟨o, ho, hnone⟩ := hbad
      rcases List.mem_cons.mp ho with rfl | hrest
      · simp [StoreObject.asSecret] at hnone
      · exact ⟨o, hrest, hnone⟩
    | other printed => exact ⟨_, rfl⟩

theorem secretsStoresLoop_ok (is : List Secret) (stores : List (List StoreObject))
    (hall : ∀ store ∈ stores, ∀ obj ∈ store, obj.asSecret ≠ none) :
    secretsStoresLoop is stores =
      Except.ok (is ++ stores.flatMap (fun store => store.filterMap StoreObject.asSecret)) := by
  induction stores generalizing is with
  | nil => simp [secretsStoresLoop]
  | cons store rest ih =>
    rw [secretsStoresLoop, secretsStoreLoop_ok is store (hall store (List.mem_cons_self _ _))]
    simp only
    rw [ih _ (fun st hst => hall st (List.mem_cons_of_mem _ hst))]
    simp [List.flatMap_cons]

theorem secretsStoresLoop_error (is : List Secret) (stores : List (List StoreObject))
    (hbad : ∃ store ∈ stores, ∃ obj ∈ store, obj.asSecret = none) :
    ∃ e, secretsStoresLoop is stores = Except.error e := by
  induction stores generalizing is with
  | nil => simp at hbad
  | cons store rest ih =>
    rw [secretsStoresLoop]
    by_cases hs : ∃ obj ∈ store, obj.asSecret = none
    · obtain ⟨e, he⟩ := secretsStoreLoop_error is store hs
      rw [he]
      exact ⟨e, rfl⟩
    · have hall : ∀ obj ∈ store, obj.asSecret ≠ none := by
        intro obj ho hnone
        exact hs ⟨obj, ho, hnone⟩
      rw [secretsStoreLoop_ok is store hall]
      simp only
      apply ih
      obtain ⟨st, hst, hrest⟩ := hbad
      rcases List.mem_cons.mp hst with rfl | hmem
      · exact absurd hrest hs
      · exact ⟨st, hmem, hrest⟩

/-! ## Upstream targets when an ingress has one rule per host -/

theorem filter_key_of_nodup {α : Type} (key : α → String) (l : List α)
    (hnd : (l.map key).Nodup) (h : String) :
    (l.filter (fun x => decide (key x = h))).length =
      if l.any (fun x => decide (key x = h)) then 1 else 0 := by
  by_cases hmem : h ∈ l.map key
  · have hany : l.any (fun x => decide (key x = h)) = true := by
      rw [List.any_eq_true]
      obtain ⟨x, hx, hk⟩ := List.mem_map.mp hmem
      exact ⟨x, hx, by simpa using hk⟩
    rw [filter_length_eq_one key l hnd h hmem, hany]
    rfl
  · have hany : l.any (fun x => decide (key x = h)) = false := by
      rw [List.any_eq_false]
      intro x hx hk
      exact hmem (List.mem_map.mpr ⟨x, hx, by simpa using hk⟩)
    have hnil : l.filter (fun x => decide (key x = h)) = [] := by
      rw [List.filter_eq_nil_iff]
      intro x hx hk
      exact hmem (List.mem_map.mpr ⟨x, hx, by simpa using hk⟩)
    rw [hnil, hany]
    rfl

theorem flatMap_singleton_map {α β : Type} (f : α → β) (l : List α) :
    l.flatMap (fun x => [f x]) = l.map f := by
  induction l with
  | nil => rfl
  | cons x xs ih => simp [List.flatMap_cons, ih]

theorem expectedHosts_single_of_nodup (i : Ingress) (h : String)
    (hnd : (i.Rules.map (fun rule => rule.Host)).Nodup) :
    expectedHosts h [i] = if contributes i h then i.LoadBalancer.map upstreamTarget else [] := by
  have hlen := filter_key_of_nodup (fun (rule : IngressRule) => rule.Host) i.Rules hnd h
  simp only [expectedHosts, List.flatMap_cons, List.flatMap_nil, List.append_nil, contributes]
  by_cases hany : i.Rules.any (fun rule => decide (rule.Host = h)) = true
  · rw [if_pos hany] at hlen
    obtain ⟨r, hr⟩ := List.length_eq_one.mp hlen
    rw [hr]
    simp only [hany, List.map_cons, List.map_nil, Bool.and_true]
    rw [flatMap_singleton_map]
    cases i.LoadBalancer <;> simp
  · rw [if_neg hany] at hlen
    have hnil : i.Rules.filter (fun rule => decide (rule.Host = h)) = [] :=
      List.length_eq_zero.mp hlen
    rw [hnil]
    simp only [Bool.not_eq_true] at hany
    simp only [hany, Bool.and_false, Bool.false_eq_true, if_false, List.map_nil]
    induction i.LoadBalancer with
    | nil => rfl
    | cons j js ih => simp [List.flatMap_cons, ih]

theorem expectedHosts_of_nodup (h : String) (ingresses : List Ingress)
    (hnd : ∀ i ∈ ingresses, (i.Rules.map (fun rule => rule.Host)).Nodup) :
    expectedHosts h ingresses =
      (ingresses.filter (fun i => contributes i h)).flatMap
        (fun i => i.LoadBalancer.map upstreamTarget) := by
  induction ingresses with
  | nil => rfl
  | cons i rest ih =>
    have hsplit : expectedHosts h (i :: rest) = expectedHosts h [i] ++ expectedHosts h rest := by
      simp [expectedHosts, List.flatMap_cons]
    rw [hsplit, ih (fun x hx => hnd x (List.mem_cons_of_mem _ hx)),
      expectedHosts_single_of_nodup i h (hnd i (List.mem_cons_self _ _))]
    by_cases hc : contributes i h = true
    · rw [List.filter_cons_of_pos (by simpa using hc), List.flatMap_cons]
      simp [hc]
    · rw [List.filter_cons_of_neg (by simpa using hc)]
      simp [hc]

theorem hostEntry_hosts_ne_nil (p : String → Option Duration) (ingresses : List Ingress)
    (h : String) (hr : routed ingresses h) :
    (hostEntry p ingresses h).cluster.Hosts ≠ [] := by
  rw [(hostEntry_values p ingresses h).2.2.2.2, ← expectedHosts_eq]
  intro hnil
  exact (triplesFor_ne_nil_iff h ingresses).mpr hr (List.map_eq_nil_iff.mp hnil)

/-! ## What the comparators write -/

theorem sameUpToHostOrder_refl (c : cluster) : sameUpToHostOrder c c :=
  ⟨rfl, rfl, rfl, rfl, List.Perm.refl _⟩

theorem cluster_EqualsM_fst (S : SliceSort) (c o : cluster) :
    (c.EqualsM S o).1 = c.Equals S (some o) := by
  unfold cluster.EqualsM cluster.Equals
  by_cases h1 : c.Name = o.Name
  · by_cases h2 : c.Timeout = o.Timeout
    · by_cases h3 : c.VirtualHost = o.VirtualHost
      · by_cases h4 : c.HealthCheckPath = o.HealthCheckPath
        · by_cases h5 : c.Hosts.length = o.Hosts.length
          · simp [h1, h2, h3, h4, h5]
          · simp [h1, h2, h3, h4, h5]
        · simp [h1, h2, h3, h4]
      · simp [h1, h2, h3]
    · simp [h1, h2]
  · simp [h1]

theorem cluster_EqualsM_same (S : SliceSort) (c o : cluster) :
    sameUpToHostOrder (c.EqualsM S o).2.1 c ∧ sameUpToHostOrder (c.EqualsM S o).2.2 o := by
  unfold cluster.EqualsM
  split_ifs
  · exact ⟨sameUpToHostOrder_refl c, sameUpToHostOrder_refl o⟩
  · exact ⟨sameUpToHostOrder_refl c, sameUpToHostOrder_refl o⟩
  · exact ⟨sameUpToHostOrder_refl c, sameUpToHostOrder_refl o⟩
  · exact ⟨sameUpToHostOrder_refl c, sameUpToHostOrder_refl o⟩
  · exact ⟨sameUpToHostOrder_refl c, sameUpToHostOrder_refl o⟩
  · exact ⟨⟨rfl, rfl, rfl, rfl, S.perm _ c.Hosts⟩, ⟨rfl, rfl, rfl, rfl, S.perm _ o.Hosts⟩⟩

theorem forall₂_sameUpToHostOrder_refl (l : List cluster) :
    List.Forall₂ sameUpToHostOrder l l := by
  induction l with
  | nil => exact List.Forall₂.nil
  | cons c cs ih => exact List.Forall₂.cons (sameUpToHostOrder_refl c) ih

theorem clustersLoopM_fst (S : SliceSort) (a b : List cluster) :
    (clustersLoopM S a b).1 = clustersLoop S a b := by
  induction a generalizing b with
  | nil => rfl
  | cons c cs ih =>
    cases b with
    | nil => rfl
    | cons o os =>
      simp only [clustersLoopM, clustersLoop, cluster_EqualsM_fst]
      cases c.Equals S (some o) <;> simp [ih]

theorem clustersLoopM_same (S : SliceSort) (a b : List cluster) :
    List.Forall₂ sameUpToHostOrder (clustersLoopM S a b).2.1 a ∧
    List.Forall₂ sameUpToHostOrder (clustersLoopM S a b).2.2 b := by
  induction a generalizing b with
  | nil =>
    exact ⟨List.Forall₂.nil, forall₂_sameUpToHostOrder_refl b⟩
  | cons c cs ih =>
    cases b with
    | nil => exact ⟨forall₂_sameUpToHostOrder_refl _, List.Forall₂.nil⟩
    | cons o os =>
      have hs := cluster_EqualsM_same S c o
      simp only [clustersLoopM]
      cases (c.EqualsM S o).1
      · simp only [Bool.not_false, if_true]
        exact ⟨List.Forall₂.cons hs.1 (forall₂_sameUpToHostOrder_refl cs),
          List.Forall₂.cons hs.2 (forall₂_sameUpToHostOrder_refl os)⟩
      · simp only [Bool.not_true, Bool.false_eq_true, if_false]
        exact ⟨List.Forall₂.cons hs.1 (ih os).1, List.Forall₂.cons hs.2 (ih os).2⟩

theorem ClustersEqualsM_fst (S : SliceSort) (a b : List cluster) :
    (ClustersEqualsM S a b).1 = ClustersEquals S a b := by
  unfold ClustersEqualsM ClustersEquals
  by_cases h : a.length = b.length
  · simp [h, clustersLoopM_fst]
  · simp [h]

theorem ClustersEqualsM_same (S : SliceSort) (a b : List cluster) :
    (∃ l, l.Perm a ∧ List.Forall₂ sameUpToHostOrder (ClustersEqualsM S a b).2.1 l) ∧
    (∃ l, l.Perm b ∧ List.Forall₂ sameUpToHostOrder (ClustersEqualsM S a b).2.2 l) := by
  unfold ClustersEqualsM
  by_cases h : a.length = b.length
  · simp only [h, ne_eq, not_true_eq_false, if_false]
    have hs := clustersLoopM_same S (sortCluster S a) (sortCluster S b)
    exact ⟨⟨_, S.perm _ a, hs.1⟩, ⟨_, S.perm _ b, hs.2⟩⟩
  · simp only [h, ne_eq, not_false_eq_true, if_true]
    exact ⟨⟨a, List.Perm.refl a, forall₂_sameUpToHostOrder_refl a⟩,
      ⟨b, List.Perm.refl b, forall₂_sameUpToHostOrder_refl b⟩⟩

theorem VirtualHostsEqualsM_fst (S : SliceSort) (a b : List virtualHost) :
    (VirtualHostsEqualsM S a b).1 = VirtualHostsEquals S a b := by
  unfold VirtualHostsEqualsM VirtualHostsEquals
  by_cases h : a.length = b.length
  · simp [h]
  · simp [h]

theorem VirtualHostsEqualsM_perm (S : SliceSort) (a b : List virtualHost) :
    (VirtualHostsEqualsM S a b).2.1.Perm a ∧ (VirtualHostsEqualsM S a b).2.2.Perm b := by
  unfold VirtualHostsEqualsM
  by_cases h : a.length = b.length
  · simp only [h, ne_eq, not_true_eq_false, if_false]
    exact ⟨S.perm _ a, S.perm _ b⟩
  · simp only [h, ne_eq, not_false_eq_true, if_true]
    exact ⟨List.Perm.refl a, List.Perm.refl b⟩

/-! ## Claims -/

/-- C1: for every host `h` that is the host of some rule of some ingress having at least
one load-balancer endpoint, the configuration returned by `translateIngresses` contains
exactly one VirtualHost with `Host == h`, its `UpstreamCluster` is `h` with every dot
replaced by an underscore, and the configuration contains no VirtualHost whose host is
not routed in this sense. This holds for every order in which the map is ranged over. -/
theorem translateIngresses_one_vhost_per_host (R : MapRange) (p : String → Option Duration)
    (ingresses : List Ingress) (secrets : List Secret) (h : String)
    (hr : routed ingresses h) :
    ((translateIngresses R p ingresses secrets).VirtualHosts.filter
        (fun v => decide (v.Host = h))).length = 1 ∧
    (∀ v ∈ (translateIngresses R p ingresses secrets).VirtualHosts,
        v.Host = h → v.UpstreamCluster = replaceDots h) ∧
    (∀ v ∈ (translateIngresses R p ingresses secrets).VirtualHosts,
        routed ingresses v.Host) := by
  refine ⟨?_, ?_, ?_⟩
  · apply filter_length_eq_one (fun (v : virtualHost) => v.Host)
    · rw [VirtualHosts_keys]
      exact (range_keys R p ingresses).1
    · rw [VirtualHosts_keys]
      exact ((range_keys R p ingresses).2 h).mpr hr
  · intro v hv hvh
    have h2 := ((mem_VirtualHosts_iff R p ingresses secrets v).mp hv).2
    rw [h2, (hostVhost_fields p ingresses secrets v.Host).2.1, hvh]
  · intro v hv
    exact ((mem_VirtualHosts_iff R p ingresses secrets v).mp hv).1

/-- C1 at the one-ingress input `svcIngress`, host `svc.example.com`. -/
theorem translateIngresses_one_vhost_per_host_witness :
    routed [svcIngress] "svc.example.com" ∧
    ((translateIngresses rangeInOrder parseSample [svcIngress] [s1Secret]).VirtualHosts.filter
        (fun v => decide (v.Host = "svc.example.com"))).length = 1 ∧
    (∀ v ∈ (translateIngresses rangeInOrder parseSample [svcIngress] [s1Secret]).VirtualHosts,
        v.Host = "svc.example.com" → v.UpstreamCluster = replaceDots "svc.example.com") ∧
    (∀ v ∈ (translateIngresses rangeInOrder parseSample [svcIngress] [s1Secret]).VirtualHosts,
        routed [svcIngress] v.Host) :=
  ⟨(routed_svcIngress _).mpr rfl,
    translateIngresses_one_vhost_per_host rangeInOrder parseSample [svcIngress] [s1Secret]
      "svc.example.com" ((routed_svcIngress _).mpr rfl)⟩

/-- C2, as stated, fails: the hosts `a.b` and `a_b` of one ingress both yield a cluster
named `a_b`, so the upstream cluster of a published virtual host is the name of two
clusters. -/
theorem translateIngresses_cluster_names_clash :
    ¬ (∀ v ∈ (translateIngresses rangeInOrder parseSample [clashIngress] []).VirtualHosts,
        ((translateIngresses rangeInOrder parseSample [clashIngress] []).Clusters.filter
          (fun c => decide (c.Name = v.UpstreamCluster))).length = 1) := by
  decide

/-- C2, amended: when no two routed hosts are given the same cluster name, every
VirtualHost's `UpstreamCluster` is the `Name` of exactly one Cluster of the configuration,
every Cluster's `Name` is the `UpstreamCluster` of exactly one VirtualHost, and the cluster
names are pairwise distinct. -/
theorem translateIngresses_pairing (R : MapRange) (p : String → Option Duration)
    (ingresses : List Ingress) (secrets : List Secret)
    (hinj : clusterNamesDistinct ingresses) :
    (∀ v ∈ (translateIngresses R p ingresses secrets).VirtualHosts,
        ((translateIngresses R p ingresses secrets).Clusters.filter
          (fun c => decide (c.Name = v.UpstreamCluster))).length = 1) ∧
    (∀ c ∈ (translateIngresses R p ingresses secrets).Clusters,
        ((translateIngresses R p ingresses secrets).VirtualHosts.filter
          (fun v => decide (v.UpstreamCluster = c.Name))).length = 1) ∧
    ((translateIngresses R p ingresses secrets).Clusters.map (fun c => c.Name)).Nodup := by
  have hC := Clusters_names R p ingresses secrets
  have hV := VirtualHosts_upstreams R p ingresses secrets
  have hnd := names_nodup R p ingresses hinj
  refine ⟨?_, ?_, ?_⟩
  · intro v hv
    apply filter_length_eq_one (fun (c : cluster) => c.Name)
    · rw [hC]; exact hnd
    · rw [hC, ← hV]
      exact List.mem_map.mpr ⟨v, hv, rfl⟩
  · intro c hc
    apply filter_length_eq_one (fun (v : virtualHost) => v.UpstreamCluster)
    · rw [hV]; exact hnd
    · rw [hV, ← hC]
      exact List.mem_map.mpr ⟨c, hc, rfl⟩
  · rw [hC]; exact hnd

/-- C2 amended, at the two-ingress input `svcIngress`, `apiIngress`. -/
theorem translateIngresses_pairing_witness :
    clusterNamesDistinct [svcIngress, apiIngress] ∧
    (∀ v ∈ (translateIngresses rangeReversed parseSample [svcIngress, apiIngress]
          [s1Secret]).VirtualHosts,
        ((translateIngresses rangeReversed parseSample [svcIngress, apiIngress]
          [s1Secret]).Clusters.filter
          (fun c => decide (c.Name = v.UpstreamCluster))).length = 1) ∧
    (∀ c ∈ (translateIngresses rangeReversed parseSample [svcIngress, apiIngress]
          [s1Secret]).Clusters,
        ((translateIngresses rangeReversed parseSample [svcIngress, apiIngress]
          [s1Secret]).VirtualHosts.filter
          (fun v => decide (v.UpstreamCluster = c.Name))).length = 1) ∧
    ((translateIngresses rangeReversed parseSample [svcIngress, apiIngress]
      [s1Secret]).Clusters.map (fun c => c.Name)).Nodup :=
  ⟨clusterNamesDistinct_sample,
    translateIngresses_pairing rangeReversed parseSample [svcIngress, apiIngress] [s1Secret]
      clusterNamesDistinct_sample⟩

/-- C3: the `Hosts` of the Cluster that `translateIngresses` produces for host `h` is the
sequence obtained by walking every (ingress, load-balancer endpoint, rule with host `h`)
triple in input order, taking the endpoint's hostname when it is non-empty and its IP
otherwise; a routed host has such a Cluster; and one ingress with the endpoints
`{hostname a}`, `{ip b}` and a single rule for `h` yields `Hosts == [a, b]`. -/
theorem translateIngresses_cluster_hosts (R : MapRange) (p : String → Option Duration)
    (ingresses : List Ingress) (secrets : List Secret) (h : String) :
    (∀ c ∈ (translateIngresses R p ingresses secrets).Clusters,
        c.VirtualHost = h → c.Hosts = expectedHosts h ingresses) ∧
    (routed ingresses h →
      ∃ c ∈ (translateIngresses R p ingresses secrets).Clusters, c.VirtualHost = h) ∧
    (∀ (i : Ingress) (a b : String),
      i.LoadBalancer = [{ IP := "", Hostname := a }, { IP := b, Hostname := "" }] →
      i.Rules = [{ Host := h }] →
      ∃ c ∈ (translateIngresses R p [i] secrets).Clusters,
        c.VirtualHost = h ∧ c.Hosts = [a, b] ∧ c.Hosts.length = 2) := by
  refine ⟨?_, ?_, ?_⟩
  · intro c hc hh
    rw [cluster_eq_of_mem R p ingresses secrets h c hc hh]
    exact (hostEntry_values p ingresses h).2.2.2.2
  · intro hr
    exact ⟨_, hostCluster_mem R p ingresses secrets h hr,
      (hostEntry_fields p ingresses h).2.2.2.1⟩
  · intro i a b hlb hrules
    have hr : routed [i] h :=
      ⟨i, by simp, by simp [hlb], ⟨h⟩, by simp [hrules], rfl⟩
    have hhosts : expectedHosts h [i] = [a, b] := by
      by_cases ha : a = "" <;> simp [expectedHosts, hlb, hrules, upstreamTarget, ha]
    refine ⟨_, hostCluster_mem R p [i] secrets h hr, (hostEntry_fields p [i] h).2.2.2.1, ?_, ?_⟩
    · rw [(hostEntry_values p [i] h).2.2.2.2, hhosts]
    · rw [(hostEntry_values p [i] h).2.2.2.2, hhosts]
      rfl

/-- C3 at the input `svcIngress`: the cluster of `svc.example.com` has the two upstream
targets `a.example.com` and `1.2.3.4`. -/
theorem translateIngresses_cluster_hosts_witness :
    ∃ c ∈ (translateIngresses rangeInOrder parseSample [svcIngress] [s1Secret]).Clusters,
      c.VirtualHost = "svc.example.com" ∧ c.Hosts = ["a.example.com", "1.2.3.4"] ∧
        c.Hosts.length = 2 :=
  (translateIngresses_cluster_hosts rangeInOrder parseSample [svcIngress] [s1Secret]
    "svc.example.com").2.2 svcIngress "a.example.com" "1.2.3.4" rfl rfl

/-- C4: if some ingress contributing to host `h` carries a non-empty timeout annotation that
parses as a valid duration, and `d` is the parsed value of the last such ingress in input
order, then `h` is published and its VirtualHost has `Timeout == d` and
`PerTryTimeout == d` and its Cluster has `Timeout == d`. -/
theorem translateIngresses_timeout_override (R : MapRange) (p : String → Option Duration)
    (ingresses : List Ingress) (secrets : List Secret) (h : String) (d : Duration)
    (hd : lastContributing (validTimeout p) h ingresses = some d) :
    (∃ v ∈ (translateIngresses R p ingresses secrets).VirtualHosts, v.Host = h) ∧
    (∃ c ∈ (translateIngresses R p ingresses secrets).Clusters, c.VirtualHost = h) ∧
    (∀ v ∈ (translateIngresses R p ingresses secrets).VirtualHosts,
        v.Host = h → v.Timeout = d ∧ v.PerTryTimeout = d) ∧
    (∀ c ∈ (translateIngresses R p ingresses secrets).Clusters,
        c.VirtualHost = h → c.Timeout = d) := by
  have hr := lastContributing_routed (validTimeout p) h ingresses d hd
  have hval := hostEntry_values p ingresses h
  rw [hd] at hval
  refine ⟨⟨_, hostVhost_mem R p ingresses secrets h hr,
      (hostVhost_fields p ingresses secrets h).1⟩,
    ⟨_, hostCluster_mem R p ingresses secrets h hr, (hostEntry_fields p ingresses h).2.2.2.1⟩,
    ?_, ?_⟩
  · intro v hv hh
    rw [vhost_eq_of_mem R p ingresses secrets h v hv hh,
      (hostVhost_fields p ingresses secrets h).2.2.1,
      (hostVhost_fields p ingresses secrets h).2.2.2, hval.1, hval.2.1]
    exact ⟨rfl, rfl⟩
  · intro c hc hh
    rw [cluster_eq_of_mem R p ingresses secrets h c hc hh, hval.2.2.1]
    rfl

/-- C4 at the input `svcIngress`, `apiIngress`: the annotation `2500ms` of `svcIngress` sets
the three timeouts of `svc.example.com` to 2.5 s. -/
theorem translateIngresses_timeout_override_witness :
    lastContributing (validTimeout parseSample) "svc.example.com" [svcIngress, apiIngress] =
      some 2500000000 ∧
    (∃ v ∈ (translateIngresses rangeInOrder parseSample [svcIngress, apiIngress]
        [s1Secret]).VirtualHosts, v.Host = "svc.example.com") ∧
    (∃ c ∈ (translateIngresses rangeInOrder parseSample [svcIngress, apiIngress]
        [s1Secret]).Clusters, c.VirtualHost = "svc.example.com") ∧
    (∀ v ∈ (translateIngresses rangeInOrder parseSample [svcIngress, apiIngress]
        [s1Secret]).VirtualHosts,
        v.Host = "svc.example.com" → v.Timeout = 2500000000 ∧ v.PerTryTimeout = 2500000000) ∧
    (∀ c ∈ (translateIngresses rangeInOrder parseSample [svcIngress, apiIngress]
        [s1Secret]).Clusters,
        c.VirtualHost = "svc.example.com" → c.Timeout = 2500000000) :=
  ⟨by decide,
    translateIngresses_timeout_override rangeInOrder parseSample [svcIngress, apiIngress]
      [s1Secret] "svc.example.com" 2500000000 (by decide)⟩

/-- C5: if no ingress contributing to the routed host `h` carries a timeout annotation that
parses as a valid duration (the annotation is absent or empty, or it does not parse), then
`h` is published, its VirtualHost has `Timeout == 15s` and `PerTryTimeout == 5s` and its
Cluster has `Timeout == 30s`. The translation is total, every routed host is published, and
what is published for any host is what translating only the ingresses contributing to that
host gives. -/
theorem translateIngresses_timeout_defaults (R : MapRange) (p : String → Option Duration)
    (ingresses : List Ingress) (secrets : List Secret) (h : String)
    (hr : routed ingresses h)
    (hnone : ∀ i ∈ ingresses, contributes i h = true →
      i.annotation "yggdrasil.uswitch.com/timeout" = "" ∨
        p (i.annotation "yggdrasil.uswitch.com/timeout") = none) :
    (∃ v ∈ (translateIngresses R p ingresses secrets).VirtualHosts, v.Host = h) ∧
    (∃ c ∈ (translateIngresses R p ingresses secrets).Clusters, c.VirtualHost = h) ∧
    (∀ v ∈ (translateIngresses R p ingresses secrets).VirtualHosts,
        v.Host = h → v.Timeout = 15 * Second ∧ v.PerTryTimeout = 5 * Second) ∧
    (∀ c ∈ (translateIngresses R p ingresses secrets).Clusters,
        c.VirtualHost = h → c.Timeout = 30 * Second) ∧
    (∀ g, routed ingresses g →
      ∃ v ∈ (translateIngresses R p ingresses secrets).VirtualHosts, v.Host = g) ∧
    (∀ g, ∀ v ∈ (translateIngresses R p ingresses secrets).VirtualHosts, v.Host = g →
      v ∈ (translateIngresses R p (ingresses.filter (fun i => contributes i g))
        secrets).VirtualHosts) ∧
    (∀ g, ∀ c ∈ (translateIngresses R p ingresses secrets).Clusters, c.VirtualHost = g →
      c ∈ (translateIngresses R p (ingresses.filter (fun i => contributes i g))
        secrets).Clusters) := by
  have hlast : lastContributing (validTimeout p) h ingresses = none := by
    apply lastContributing_none
    intro i hi hc
    unfold validTimeout
    rcases hnone i hi hc with he | hp
    · simp [he]
    · simp [hp]
  have hval := hostEntry_values p ingresses h
  rw [hlast] at hval
  refine ⟨⟨_, hostVhost_mem R p ingresses secrets h hr,
      (hostVhost_fields p ingresses secrets h).1⟩,
    ⟨_, hostCluster_mem R p ingresses secrets h hr, (hostEntry_fields p ingresses h).2.2.2.1⟩,
    ?_, ?_, ?_, ?_, ?_⟩
  · intro v hv hh
    rw [vhost_eq_of_mem R p ingresses secrets h v hv hh,
      (hostVhost_fields p ingresses secrets h).2.2.1,
      (hostVhost_fields p ingresses secrets h).2.2.2, hval.1, hval.2.1]
    exact ⟨rfl, rfl⟩
  · intro c hc hh
    rw [cluster_eq_of_mem R p ingresses secrets h c hc hh, hval.2.2.1]
    rfl
  · intro g hg
    exact ⟨_, hostVhost_mem R p ingresses secrets g hg,
      (hostVhost_fields p ingresses secrets g).1⟩
  · intro g v hv hh
    have hg : routed ingresses g := by
      rw [← hh]
      exact ((mem_VirtualHosts_iff R p ingresses secrets v).mp hv).1
    rw [vhost_eq_of_mem R p ingresses secrets g v hv hh, ← hostVhost_filter]
    exact hostVhost_mem R p _ secrets g ((routed_filter ingresses g).mpr hg)
  · intro g c hc hh
    have hg : routed ingresses g := by
      rw [← hh]
      exact ((mem_Clusters_iff R p ingresses secrets c).mp hc).1
    rw [cluster_eq_of_mem R p ingresses secrets g c hc hh, ← hostEntry_filter]
    exact hostCluster_mem R p _ secrets g ((routed_filter ingresses g).mpr hg)

/-- C5 at the input `svcIngress`, `apiIngress`: the annotation `notaduration` of
`apiIngress` leaves the defaults on `api.example.com`. -/
theorem translateIngresses_timeout_defaults_witness :
    routed [svcIngress, apiIngress] "api.example.com" ∧
    (∀ v ∈ (translateIngresses rangeInOrder parseSample [svcIngress, apiIngress]
        [s1Secret]).VirtualHosts,
        v.Host = "api.example.com" → v.Timeout = 15 * Second ∧ v.PerTryTimeout = 5 * Second) ∧
    (∀ c ∈ (translateIngresses rangeInOrder parseSample [svcIngress, apiIngress]
        [s1Secret]).Clusters,
        c.VirtualHost = "api.example.com" → c.Timeout = 30 * Second) :=
  have hr : routed [svcIngress, apiIngress] "api.example.com" :=
    (routed_sample _).mpr (Or.inr rfl)
  have hmain := translateIngresses_timeout_defaults rangeInOrder parseSample
    [svcIngress, apiIngress] [s1Secret] "api.example.com" hr (by decide)
  ⟨hr, hmain.2.2.1, hmain.2.2.2.1⟩

/-- C6: for a single ingress that has at least one load-balancer endpoint, a rule for host
`h` and a TLS entry whose hosts include `h`, the recorded reference is the ingress's
namespace with the secret name of the first TLS entry listing `h`; and when the secret list
contains a secret matching that reference with both `tls.crt` and `tls.key`, the
VirtualHost produced for `h` has `TlsCert` and `TlsKey` equal to the `tls.crt` and `tls.key`
contents of the first such secret of the list. -/
theorem translateIngresses_tls_material (R : MapRange) (p : String → Option Duration)
    (i : Ingress) (secrets : List Secret) (h : String)
    (hlb : i.LoadBalancer ≠ []) (hrule : ∃ rule ∈ i.Rules, rule.Host = h)
    (htls : ∃ tls ∈ i.TLS, h ∈ tls.Hosts) :
    ∃ t, i.TLS.find? (fun tls => decide (h ∈ tls.Hosts)) = some t ∧
      getHostTlsSecret i h = some ⟨t.SecretName, i.Namespace⟩ ∧
      ∀ s, secrets.find? (secretServes ⟨t.SecretName, i.Namespace⟩) = some s →
        (∃ v ∈ (translateIngresses R p [i] secrets).VirtualHosts, v.Host = h) ∧
        ∀ v ∈ (translateIngresses R p [i] secrets).VirtualHosts, v.Host = h →
          some v.TlsCert = mapGet s.Data "tls.crt" ∧ some v.TlsKey = mapGet s.Data "tls.key" := by
  have hc : contributes i h = true := (contributes_iff i h).mpr ⟨hlb, hrule⟩
  have hr : routed [i] h := (routed_iff_contributes [i] h).mpr ⟨i, by simp, hc⟩
  have hsome : (i.TLS.find? (fun tls => decide (h ∈ tls.Hosts))).isSome = true := by
    rw [List.find?_isSome]
    obtain ⟨tls, ht, hh⟩ := htls
    exact ⟨tls, ht, by simpa using hh⟩
  obtain ⟨t, ht⟩ := Option.isSome_iff_exists.mp hsome
  have href : getHostTlsSecret i h = some ⟨t.SecretName, i.Namespace⟩ := by
    rw [getHostTlsSecret_eq, ht]
    rfl
  refine ⟨t, ht, href, ?_⟩
  intro s hs
  refine ⟨⟨_, hostVhost_mem R p [i] secrets h hr, (hostVhost_fields p [i] secrets h).1⟩, ?_⟩
  intro v hv hh
  have hserves : secretServes ⟨t.SecretName, i.Namespace⟩ s = true := List.find?_some hs
  rw [vhost_eq_of_mem R p [i] secrets h v hv hh, hostVhost_eq, recordedRef_single i h hc, href]
  simp only [hs]
  exact secretServes_data _ s hserves

/-- C6 at the input `svcIngress` with the secret `s1Secret`: the certificate and key of
`svc.example.com` are those of the secret. -/
theorem translateIngresses_tls_material_witness :
    (∃ v ∈ (translateIngresses rangeInOrder parseSample [svcIngress] [s1Secret]).VirtualHosts,
      v.Host = "svc.example.com") ∧
    ∀ v ∈ (translateIngresses rangeInOrder parseSample [svcIngress] [s1Secret]).VirtualHosts,
      v.Host = "svc.example.com" → some v.TlsCert = some "CERT" ∧ some v.TlsKey = some "KEY" := by
  obtain ⟨t, ht, _, hall⟩ := translateIngresses_tls_material rangeInOrder parseSample
    svcIngress [s1Secret] "svc.example.com" (by decide)
    ⟨⟨"svc.example.com"⟩, by decide, rfl⟩
    ⟨⟨["svc.example.com"], "s1"⟩, by decide, by decide⟩
  have ht' : t = ⟨["svc.example.com"], "s1"⟩ := by
    have : svcIngress.TLS.find? (fun tls => decide ("svc.example.com" ∈ tls.Hosts)) =
        some ⟨["svc.example.com"], "s1"⟩ := by decide
    rw [this] at ht
    exact (Option.some.inj ht).symm
  subst ht'
  exact hall s1Secret (by decide)

/-- C7: for a routed host `h`, if no contributing ingress has a TLS entry listing `h`, or
the secret list contains no secret that matches the recorded reference and carries both
`tls.crt` and `tls.key`, then the VirtualHost for `h` is still published and has
`TlsCert == ""` and `TlsKey == ""`; the translation is total, so no error is raised. -/
theorem translateIngresses_tls_absent (R : MapRange) (p : String → Option Duration)
    (ingresses : List Ingress) (secrets : List Secret) (h : String)
    (hr : routed ingresses h)
    (hno : (∀ i ∈ ingresses, contributes i h = true → ∀ tls ∈ i.TLS, h ∉ tls.Hosts) ∨
      (∀ ref, recordedRef h ingresses = some ref → ∀ s ∈ secrets, secretServes ref s = false)) :
    (∃ v ∈ (translateIngresses R p ingresses secrets).VirtualHosts, v.Host = h) ∧
    ∀ v ∈ (translateIngresses R p ingresses secrets).VirtualHosts, v.Host = h →
      v.TlsCert = "" ∧ v.TlsKey = "" := by
  refine ⟨⟨_, hostVhost_mem R p ingresses secrets h hr,
    (hostVhost_fields p ingresses secrets h).1⟩, ?_⟩
  intro v hv hh
  have hf := hostEntry_fields p ingresses h
  rw [vhost_eq_of_mem R p ingresses secrets h v hv hh, hostVhost_eq]
  have hsecond : (∀ ref, recordedRef h ingresses = some ref →
      ∀ s ∈ secrets, secretServes ref s = false) := by
    rcases hno with h1 | h2
    · intro ref href
      have hnone : recordedRef h ingresses = none := by
        apply lastContributing_none
        intro i hi hc
        rw [getHostTlsSecret_eq]
        have : i.TLS.find? (fun tls => decide (h ∈ tls.Hosts)) = none := by
          rw [List.find?_eq_none]
          intro tls htls
          simpa using h1 i hi hc tls htls
        rw [this]
        rfl
      rw [hnone] at href
      cases href
    · exact h2
  cases href : recordedRef h ingresses with
  | none => exact ⟨hf.2.2.2.2.1, hf.2.2.2.2.2⟩
  | some ref =>
    have hfind : secrets.find? (secretServes ref) = none := by
      rw [List.find?_eq_none]
      intro s hs
      simp [hsecond ref href s hs]
    simp only [hfind]
    exact ⟨hf.2.2.2.2.1, hf.2.2.2.2.2⟩

/-- C7 at the input `svcIngress`, `apiIngress`: `apiIngress` has no TLS entry, so
`api.example.com` is published without certificate and key. -/
theorem translateIngresses_tls_absent_witness :
    routed [svcIngress, apiIngress] "api.example.com" ∧
    (∃ v ∈ (translateIngresses rangeInOrder parseSample [svcIngress, apiIngress]
        [s1Secret]).VirtualHosts, v.Host = "api.example.com") ∧
    ∀ v ∈ (translateIngresses rangeInOrder parseSample [svcIngress, apiIngress]
        [s1Secret]).VirtualHosts, v.Host = "api.example.com" →
      v.TlsCert = "" ∧ v.TlsKey = "" :=
  ⟨(routed_sample _).mpr (Or.inr rfl),
    translateIngresses_tls_absent rangeInOrder parseSample [svcIngress, apiIngress] [s1Secret]
      "api.example.com" ((routed_sample _).mpr (Or.inr rfl)) (Or.inl (by decide))⟩

/-- C8, as stated, fails: translating the one-ingress input `clashIngress` twice, the map
being ranged over in two different orders, gives two configurations whose clusters do not
compare equal, because both clusters are named `a_b` and sorting by name leaves each list
in the order it had. -/
theorem translateIngresses_equals_clash :
    (translateIngresses rangeInOrder parseSample [clashIngress] []).equals goInsertionSort
        (some (translateIngresses rangeReversed parseSample [clashIngress] [])) = (true, false) ∧
    (translateIngresses rangeInOrder parseSample [clashIngress] []).equals goInsertionSort
        (some (translateIngresses rangeReversed parseSample [clashIngress] [])) ≠ (true, true) := by
  have hv := VirtualHostsEquals_translate goInsertionSort rangeInOrder rangeReversed parseSample
    [clashIngress] [clashIngress] [] (fun _ => rfl)
  have h1 : (translateIngresses rangeInOrder parseSample [clashIngress] []).Clusters =
      [{ Name := "a_b", VirtualHost := "a.b", HealthCheckPath := "", Timeout := 30 * Second,
          Hosts := ["10.0.0.1"] },
        { Name := "a_b", VirtualHost := "a_b", HealthCheckPath := "", Timeout := 30 * Second,
          Hosts := ["10.0.0.1"] }] := by decide
  have h2 : (translateIngresses rangeReversed parseSample [clashIngress] []).Clusters =
      [{ Name := "a_b", VirtualHost := "a_b", HealthCheckPath := "", Timeout := 30 * Second,
          Hosts := ["10.0.0.1"] },
        { Name := "a_b", VirtualHost := "a.b", HealthCheckPath := "", Timeout := 30 * Second,
          Hosts := ["10.0.0.1"] }] := by decide
  have hc : ClustersEquals goInsertionSort
      (translateIngresses rangeInOrder parseSample [clashIngress] []).Clusters
      (translateIngresses rangeReversed parseSample [clashIngress] []).Clusters = false := by
    rw [h1, h2]
    simp [ClustersEquals, sortCluster, goInsertionSort, insertionSort, insertLeft,
      cluster.identity, clustersLoop, cluster.Equals]
  simp [envoyConfiguration.equals, hv, hc]

/-- C8, amended: when no two routed hosts are given the same cluster name, for every secret
list and every two ingress lists that are permutations of each other in which, for every
host, the ingresses contributing to that host appear in the same relative order, the two
configurations returned by `translateIngresses` satisfy `c1.equals(c2) == (true, true)`,
whatever the orders in which the map is ranged over; in particular translating the same
input twice gives `(true, true)`. -/
theorem translateIngresses_deterministic (S : SliceSort) (R₁ R₂ : MapRange)
    (p : String → Option Duration) (l₁ l₂ : List Ingress) (secrets : List Secret)
    (_hperm : l₁.Perm l₂)
    (horder : ∀ h, l₁.filter (fun i => contributes i h) = l₂.filter (fun i => contributes i h))
    (hinj : clusterNamesDistinct l₁) :
    (translateIngresses R₁ p l₁ secrets).equals S (some (translateIngresses R₂ p l₂ secrets)) =
      (true, true) ∧
    (translateIngresses R₁ p l₁ secrets).equals S (some (translateIngresses R₂ p l₁ secrets)) =
      (true, true) := by
  have main : ∀ l : List Ingress,
      (∀ h, l₁.filter (fun i => contributes i h) = l.filter (fun i => contributes i h)) →
      (translateIngresses R₁ p l₁ secrets).equals S (some (translateIngresses R₂ p l secrets)) =
        (true, true) := by
    intro l hl
    have hv := VirtualHostsEquals_translate S R₁ R₂ p l₁ l secrets hl
    have hc : ClustersEquals S (translateIngresses R₁ p l₁ secrets).Clusters
        (translateIngresses R₂ p l secrets).Clusters = true := by
      apply ClustersEquals_of_perm S _ _ (Clusters_perm R₁ R₂ p l₁ l secrets hl)
      rw [Clusters_names]
      exact names_nodup R₁ p l₁ hinj
    simp only [envoyConfiguration.equals, hv, hc]
  exact ⟨main l₂ horder, main l₁ (fun _ => rfl)⟩

/-- C8 amended, at the inputs `svcIngress`, `apiIngress` and `apiIngress`, `svcIngress`. -/
theorem translateIngresses_deterministic_witness :
    [svcIngress, apiIngress].Perm [apiIngress, svcIngress] ∧
    clusterNamesDistinct [svcIngress, apiIngress] ∧
    (translateIngresses rangeInOrder parseSample [svcIngress, apiIngress] [s1Secret]).equals
        goInsertionSort
        (some (translateIngresses rangeReversed parseSample [apiIngress, svcIngress]
          [s1Secret])) = (true, true) :=
  ⟨List.Perm.swap apiIngress svcIngress [], clusterNamesDistinct_sample,
    (translateIngresses_deterministic goInsertionSort rangeInOrder rangeReversed parseSample
      [svcIngress, apiIngress] [apiIngress, svcIngress] [s1Secret]
      (List.Perm.swap apiIngress svcIngress []) order_sample clusterNamesDistinct_sample).1⟩

/-- C9: `ClustersEquals` and `VirtualHostsEquals` are reflexive: for every list `x` of
clusters `ClustersEquals(x, x) == true`, and for every list `y` of virtual hosts
`VirtualHostsEquals(y, y) == true`, whatever the sort does. -/
theorem comparators_reflexive (S : SliceSort) (x : List cluster) (y : List virtualHost) :
    ClustersEquals S x x = true ∧ VirtualHostsEquals S y y = true :=
  ⟨ClustersEquals_self S x, VirtualHostsEquals_self S y⟩

/-- C10: `ClustersEquals` and `VirtualHostsEquals` are symmetric: for every two lists `a`,
`b` of clusters `ClustersEquals(a, b) == ClustersEquals(b, a)`, and for every two lists
`a`, `b` of virtual hosts `VirtualHostsEquals(a, b) == VirtualHostsEquals(b, a)`. -/
theorem comparators_symmetric (S : SliceSort) (a b : List cluster)
    (a' b' : List virtualHost) :
    ClustersEquals S a b = ClustersEquals S b a ∧
    VirtualHostsEquals S a' b' = VirtualHostsEquals S b' a' :=
  ⟨ClustersEquals_comm S a b, VirtualHostsEquals_comm S a' b'⟩

/-- C11, as stated, fails: the clusters `clusterAAB` and `clusterABB` agree on `Name`,
`VirtualHost`, `HealthCheckPath` and `Timeout` and have the same set of upstream targets,
and `Equals` is false, because the sorted sequences `a, a, b` and `a, b, b` differ. -/
theorem cluster_Equals_not_set_equality :
    clusterAAB.Name = clusterABB.Name ∧ clusterAAB.VirtualHost = clusterABB.VirtualHost ∧
    clusterAAB.HealthCheckPath = clusterABB.HealthCheckPath ∧
    clusterAAB.Timeout = clusterABB.Timeout ∧
    (∀ x, x ∈ clusterAAB.Hosts ↔ x ∈ clusterABB.Hosts) ∧
    clusterAAB.Equals goInsertionSort (some clusterABB) = false := by
  refine ⟨rfl, rfl, rfl, rfl, ?_, ?_⟩
  · intro x
    simp [clusterAAB, clusterABB]
  · rw [Bool.eq_false_iff]
    intro h
    rw [cluster_Equals_iff] at h
    exact absurd h.2.2.2.2 (by decide)

/-- C11, amended: for every two clusters `c` and `o`, `c.Equals(o)` is true exactly when
their `Name`, `VirtualHost`, `HealthCheckPath` and `Timeout` are equal and their `Hosts`
are equal as multisets: the same upstream targets with the same numbers of occurrences,
regardless of order. -/
theorem cluster_Equals_iff_multiset_equality (S : SliceSort) (c o : cluster) :
    c.Equals S (some o) = true ↔
      c.Name = o.Name ∧ c.VirtualHost = o.VirtualHost ∧
        c.HealthCheckPath = o.HealthCheckPath ∧ c.Timeout = o.Timeout ∧
        c.Hosts.Perm o.Hosts :=
  cluster_Equals_iff S c o

/-- C12 fails on the code: with the allow-list `nginx`, `nginx` the one ingress of class
`nginx` is returned twice by `classFilter`, where the order-preserving filter returns it
once. -/
theorem classFilter_repeats_ingress :
    classFilter [nginxIngress] ["nginx", "nginx"] = [nginxIngress, nginxIngress] ∧
    [nginxIngress].filter (classMatches ["nginx", "nginx"]) = [nginxIngress] := by
  constructor <;> decide

/-- C13: `validIngressFilter` returns, in input order and each once, exactly the ingresses
that have at least one load-balancer endpoint with a non-empty hostname or IP and at least
one rule with a non-empty host; an ingress with no load-balancer endpoints is never in the
result, and a rejected ingress does not change what is retained of the others. -/
theorem validIngressFilter_spec (ingresses : List Ingress) :
    validIngressFilter ingresses = ingresses.filter isValidIngress ∧
    (∀ i, isValidIngress i = true ↔
      (∃ j ∈ i.LoadBalancer, j.Hostname ≠ "" ∨ j.IP ≠ "") ∧ ∃ k ∈ i.Rules, k.Host ≠ "") ∧
    (∀ i, i.LoadBalancer = [] → i ∉ validIngressFilter ingresses) ∧
    (∀ (before after : List Ingress) (rejected : Ingress), isValidIngress rejected = false →
      validIngressFilter (before ++ rejected :: after) =
        validIngressFilter before ++ validIngressFilter after) := by
  refine ⟨validIngressFilter_eq_filter ingresses, ?_, ?_, ?_⟩
  · intro i
    simp [isValidIngress]
  · intro i hlb hmem
    rw [validIngressFilter_eq_filter, List.mem_filter] at hmem
    have : isValidIngress i = false := by simp [isValidIngress, hlb]
    rw [this] at hmem
    exact absurd hmem.2 (by simp)
  · intro before after rejected hrej
    rw [validIngressFilter_eq_filter, validIngressFilter_eq_filter,
      validIngressFilter_eq_filter, List.filter_append,
      List.filter_cons_of_neg (by simp [hrej])]

/-- C14: `Snapshotter.snapshot` returns the error of the ingress `List` when that fails,
else the error of the secrets `List` when that fails, and in both cases makes no call to
`Generate` or `SetSnapshot` and leaves the serving cache as it was; when both succeed it
calls `Generate` on the two lists, then `SetSnapshot(NodeID(), result)` once, and returns
nil. -/
theorem snapshot_spec {Snap Err : Type} (s : Snapshotter Snap Err) (w : SnapshotWorld Snap) :
    (∀ err, s.listIngresses = Except.error err → s.snapshot w = (some err, w)) ∧
    (∀ ingresses secErr, s.listIngresses = Except.ok ingresses →
      s.listSecrets = Except.error secErr → s.snapshot w = (some secErr, w)) ∧
    (∀ ingresses secrets, s.listIngresses = Except.ok ingresses →
      s.listSecrets = Except.ok secrets →
      (s.snapshot w).1 = none ∧
      (s.snapshot w).2.calls = w.calls ++
        [SnapshotCall.generate ingresses secrets,
          SnapshotCall.setSnapshot s.nodeID (s.generate ingresses secrets)] ∧
      (s.snapshot w).2.cache = mapSet s.nodeID (s.generate ingresses secrets) w.cache ∧
      mapGet (s.snapshot w).2.cache s.nodeID = some (s.generate ingresses secrets)) := by
  refine ⟨?_, ?_, ?_⟩
  · intro err h1
    simp [Snapshotter.snapshot, h1]
  · intro ingresses secErr h1 h2
    simp [Snapshotter.snapshot, h1, h2]
  · intro ingresses secrets h1 h2
    simp [Snapshotter.snapshot, h1, h2, mapGet_mapSet]

/-- C15: `SecretsAggregator.List` returns an error exactly when some store yields an object
that is not a secret; otherwise it returns, without error, the concatenation of the
contents of the stores in registration order, which is the empty list when no store is
registered or all stores are empty. -/
theorem SecretsAggregator_List_spec (stores : List (List StoreObject)) :
    ((∃ e, SecretsAggregator_List stores = Except.error e) ↔
      ∃ store ∈ stores, ∃ obj ∈ store, obj.asSecret = none) ∧
    ((∀ store ∈ stores, ∀ obj ∈ store, obj.asSecret ≠ none) →
      SecretsAggregator_List stores =
        Except.ok (stores.flatMap (fun store => store.filterMap StoreObject.asSecret))) ∧
    SecretsAggregator_List [] = Except.ok [] ∧
    ((∀ store ∈ stores, store = []) → SecretsAggregator_List stores = Except.ok []) := by
  have hok : (∀ store ∈ stores, ∀ obj ∈ store, obj.asSecret ≠ none) →
      SecretsAggregator_List stores =
        Except.ok (stores.flatMap (fun store => store.filterMap StoreObject.asSecret)) := by
    intro hall
    unfold SecretsAggregator_List
    rw [secretsStoresLoop_ok [] stores hall]
    simp
  refine ⟨?_, hok, rfl, ?_⟩
  · constructor
    · rintro ⟨e, he⟩
      by_contra hno
      have hall : ∀ store ∈ stores, ∀ obj ∈ store, obj.asSecret ≠ none := by
        intro store hs obj ho hnone
        exact hno ⟨store, hs, obj, ho, hnone⟩
      rw [hok hall] at he
      cases he
    · intro hbad
      exact secretsStoresLoop_error [] stores hbad
  · intro hempty
    have hall : ∀ store ∈ stores, ∀ obj ∈ store, obj.asSecret ≠ none := by
      intro store hs obj ho
      rw [hempty store hs] at ho
      simp at ho
    rw [hok hall]
    have : stores.flatMap (fun store => store.filterMap StoreObject.asSecret) = [] := by
      rw [List.flatMap_eq_nil_iff]
      intro store hs
      rw [hempty store hs]
      rfl
    rw [this]

/-- C16, as stated, fails: the one ingress `twoRulesIngress`, with a single endpoint and two
rules for the same host, yields a cluster whose `Hosts` holds the endpoint's target
twice. -/
theorem translateIngresses_repeats_target :
    ¬ (∀ c ∈ (translateIngresses rangeInOrder parseSample [twoRulesIngress] []).Clusters,
        c.Hosts.Nodup) := by
  decide

/-- C16, amended: `translateIngresses` appends the target of a load-balancer endpoint to the
`Hosts` of a host's Cluster once for every rule of the ingress that is for this host. So
when no ingress has two rules for the same host, the `Hosts` of each Cluster holds every
endpoint of every contributing ingress exactly once, in input order, and a single ingress
with a single endpoint yields Clusters whose `Hosts` have no repeated entry. -/
theorem translateIngresses_targets_once (R : MapRange) (p : String → Option Duration)
    (ingresses : List Ingress) (secrets : List Secret)
    (hrules : ∀ i ∈ ingresses, (i.Rules.map (fun rule => rule.Host)).Nodup) :
    (∀ c ∈ (translateIngresses R p ingresses secrets).Clusters,
      c.Hosts = (ingresses.filter (fun i => contributes i c.VirtualHost)).flatMap
        (fun i => i.LoadBalancer.map upstreamTarget)) ∧
    (∀ i j, ingresses = [i] → i.LoadBalancer = [j] →
      ∀ c ∈ (translateIngresses R p ingresses secrets).Clusters,
        c.Hosts = [upstreamTarget j] ∧ c.Hosts.Nodup) := by
  have hmain : ∀ c ∈ (translateIngresses R p ingresses secrets).Clusters,
      c.Hosts = (ingresses.filter (fun i => contributes i c.VirtualHost)).flatMap
        (fun i => i.LoadBalancer.map upstreamTarget) := by
    intro c hc
    have hc' := cluster_eq_of_mem R p ingresses secrets c.VirtualHost c hc rfl
    have hh : c.Hosts = (hostEntry p ingresses c.VirtualHost).cluster.Hosts :=
      congrArg cluster.Hosts hc'
    rw [hh, (hostEntry_values p ingresses c.VirtualHost).2.2.2.2,
      expectedHosts_of_nodup c.VirtualHost ingresses hrules]
  refine ⟨hmain, ?_⟩
  intro i j hi hj c hc
  have hr : routed ingresses c.VirtualHost :=
    ((mem_Clusters_iff R p ingresses secrets c).mp hc).1
  have hcontr : contributes i c.VirtualHost = true := by
    obtain ⟨i', hi', hc'⟩ := (routed_iff_contributes ingresses c.VirtualHost).mp hr
    rw [hi, List.mem_singleton] at hi'
    rw [← hi']
    exact hc'
  have hhosts : c.Hosts = [upstreamTarget j] := by
    rw [hmain c hc, hi, List.filter_cons_of_pos (by simpa using hcontr)]
    simp [hj]
  rw [hhosts]
  exact ⟨rfl, List.nodup_singleton _⟩

/-- C16 amended, at the input `svcIngress`, `apiIngress`, neither of which has two rules
for one host. -/
theorem translateIngresses_targets_once_witness :
    (∀ i ∈ [svcIngress, apiIngress], (i.Rules.map (fun rule => rule.Host)).Nodup) ∧
    (∀ c ∈ (translateIngresses rangeInOrder parseSample [svcIngress, apiIngress]
        [s1Secret]).Clusters,
      c.Hosts = ([svcIngress, apiIngress].filter (fun i => contributes i c.VirtualHost)).flatMap
        (fun i => i.LoadBalancer.map upstreamTarget)) :=
  ⟨by decide,
    (translateIngresses_targets_once rangeInOrder parseSample [svcIngress, apiIngress]
      [s1Secret] (by decide)).1⟩

/-- C18: the Cluster that `translateIngresses` produces for host `h` has as
`HealthCheckPath` the health-check-path annotation of the last ingress, in input order,
that contributes to `h` and carries a non-empty value for it, and `""` when no contributing
ingress carries a non-empty value; an ingress without the annotation that comes later does
not reset it. -/
theorem translateIngresses_healthCheckPath (R : MapRange) (p : String → Option Duration)
    (ingresses : List Ingress) (secrets : List Secret) (h : String) :
    (∀ c ∈ (translateIngresses R p ingresses secrets).Clusters, c.VirtualHost = h →
      c.HealthCheckPath = (lastContributing healthCheckPathOf h ingresses).getD "") ∧
    (routed ingresses h →
      ∃ c ∈ (translateIngresses R p ingresses secrets).Clusters, c.VirtualHost = h) ∧
    ((∀ i ∈ ingresses, contributes i h = true →
        i.annotation "yggdrasil.uswitch.com/healthcheck-path" = "") →
      ∀ c ∈ (translateIngresses R p ingresses secrets).Clusters, c.VirtualHost = h →
        c.HealthCheckPath = "") ∧
    (∀ (earlier : List Ingress) (i : Ingress),
      i.annotation "yggdrasil.uswitch.com/healthcheck-path" = "" →
      lastContributing healthCheckPathOf h (earlier ++ [i]) =
        lastContributing healthCheckPathOf h earlier) := by
  have hval : ∀ c ∈ (translateIngresses R p ingresses secrets).Clusters, c.VirtualHost = h →
      c.HealthCheckPath = (lastContributing healthCheckPathOf h ingresses).getD "" := by
    intro c hc hh
    rw [cluster_eq_of_mem R p ingresses secrets h c hc hh]
    exact (hostEntry_values p ingresses h).2.2.2.1
  refine ⟨hval, ?_, ?_, ?_⟩
  · intro hr
    exact ⟨_, hostCluster_mem R p ingresses secrets h hr,
      (hostEntry_fields p ingresses h).2.2.2.1⟩
  · intro hnone c hc hh
    rw [hval c hc hh, lastContributing_none healthCheckPathOf h ingresses]
    · rfl
    · intro i hi hcontr
      simp [healthCheckPathOf, hnone i hi hcontr]
  · intro earlier i hi
    have hnone : healthCheckPathOf i = none := by simp [healthCheckPathOf, hi]
    unfold lastContributing
    rw [List.filter_append, List.filterMap_append]
    by_cases hc : contributes i h = true
    · rw [List.filter_cons_of_pos (by simpa using hc)]
      simp [List.filterMap_cons, hnone]
    · rw [List.filter_cons_of_neg (by simpa using hc)]
      simp

/-- C19: the configuration returned by `translateIngresses` has equally many VirtualHosts
and Clusters, the i-th Cluster and the i-th VirtualHost describe the same host
(`Cluster.VirtualHost == VirtualHost.Host` and `Cluster.Name == VirtualHost.UpstreamCluster`),
and every Cluster has at least one entry in `Hosts`. -/
theorem translateIngresses_paired_by_index (R : MapRange) (p : String → Option Duration)
    (ingresses : List Ingress) (secrets : List Secret) :
    (translateIngresses R p ingresses secrets).VirtualHosts.length =
      (translateIngresses R p ingresses secrets).Clusters.length ∧
    (∀ (n : Nat) (c : cluster) (v : virtualHost),
      (translateIngresses R p ingresses secrets).Clusters[n]? = some c →
      (translateIngresses R p ingresses secrets).VirtualHosts[n]? = some v →
      c.VirtualHost = v.Host ∧ c.Name = v.UpstreamCluster) ∧
    (∀ c ∈ (translateIngresses R p ingresses secrets).Clusters, c.Hosts ≠ []) := by
  refine ⟨?_, ?_, ?_⟩
  · rw [translate_VirtualHosts, translate_Clusters, List.length_map, List.length_map]
  · intro n c v hc hv
    rw [translate_Clusters, List.getElem?_map] at hc
    rw [translate_VirtualHosts, List.getElem?_map] at hv
    cases hkv : (R.range (accumulate p ingresses).envoyIngresses)[n]? with
    | none => rw [hkv] at hc; cases hc
    | some kv =>
      rw [hkv] at hc hv
      simp only [Option.map_some', Option.some.injEq] at hc hv
      have hmem : kv ∈ R.range (accumulate p ingresses).envoyIngresses :=
        List.getElem?_mem hkv
      have he := ((mem_range_iff R p ingresses kv).mp hmem).2
      have hf := hostEntry_fields p ingresses kv.1
      have hi := injectDynamicTls_vhost kv.2 (accumulate p ingresses).vhostSecrets secrets
      rw [← hc, ← hv, hi.1, hi.2.1, he]
      exact ⟨hf.2.2.2.1.trans hf.1.symm, hf.2.2.1.trans hf.2.1.symm⟩
  · intro c hc
    have hr : routed ingresses c.VirtualHost :=
      ((mem_Clusters_iff R p ingresses secrets c).mp hc).1
    have hc' := cluster_eq_of_mem R p ingresses secrets c.VirtualHost c hc rfl
    have hh : c.Hosts = (hostEntry p ingresses c.VirtualHost).cluster.Hosts :=
      congrArg cluster.Hosts hc'
    rw [hh]
    exact hostEntry_hosts_ne_nil p ingresses c.VirtualHost hr

/-- C20: every VirtualHost `v` in the output of `translateIngresses` either has
`TlsCert == ""` and `TlsKey == ""`, or there is a single secret of the input secret list,
carrying both `tls.crt` and `tls.key`, whose `tls.crt` content is `v.TlsCert` and whose
`tls.key` content is `v.TlsKey`. -/
theorem translateIngresses_tls_from_one_secret (R : MapRange) (p : String → Option Duration)
    (ingresses : List Ingress) (secrets : List Secret) :
    ∀ v ∈ (translateIngresses R p ingresses secrets).VirtualHosts,
      (v.TlsCert = "" ∧ v.TlsKey = "") ∨
      ∃ s ∈ secrets, mapGet s.Data "tls.crt" = some v.TlsCert ∧
        mapGet s.Data "tls.key" = some v.TlsKey := by
  intro v hv
  have hf := hostEntry_fields p ingresses v.Host
  have hveq := vhost_eq_of_mem R p ingresses secrets v.Host v hv rfl
  rw [hostVhost_eq] at hveq
  cases href : recordedRef v.Host ingresses with
  | none =>
    rw [href] at hveq
    simp only at hveq
    left
    rw [hveq]
    exact ⟨hf.2.2.2.2.1, hf.2.2.2.2.2⟩
  | some ref =>
    rw [href] at hveq
    simp only at hveq
    cases hfind : secrets.find? (secretServes ref) with
    | none =>
      rw [hfind] at hveq
      simp only at hveq
      left
      rw [hveq]
      exact ⟨hf.2.2.2.2.1, hf.2.2.2.2.2⟩
    | some s =>
      rw [hfind] at hveq
      simp only at hveq
      right
      have hdata := secretServes_data ref s (List.find?_some hfind)
      refine ⟨s, List.mem_of_find?_eq_some hfind, ?_, ?_⟩
      · rw [hveq]; exact hdata.1.symm
      · rw [hveq]; exact hdata.2.symm

/-- C20 at the input `svcIngress` with the secret `s1Secret`, for the virtual host of
`svc.example.com`. -/
theorem translateIngresses_tls_from_one_secret_witness :
    ∃ v ∈ (translateIngresses rangeInOrder parseSample [svcIngress] [s1Secret]).VirtualHosts,
      (v.TlsCert = "" ∧ v.TlsKey = "") ∨
      ∃ s ∈ [s1Secret], mapGet s.Data "tls.crt" = some v.TlsCert ∧
        mapGet s.Data "tls.key" = some v.TlsKey :=
  ⟨hostVhost parseSample [svcIngress] [s1Secret] "svc.example.com",
    hostVhost_mem rangeInOrder parseSample [svcIngress] [s1Secret] "svc.example.com"
      ((routed_svcIngress _).mpr rfl),
    translateIngresses_tls_from_one_secret rangeInOrder parseSample [svcIngress] [s1Secret] _
      (hostVhost_mem rangeInOrder parseSample [svcIngress] [s1Secret] "svc.example.com"
        ((routed_svcIngress _).mpr rfl))⟩

/-- C17, as stated, fails: comparing the configuration `unsortedCfg` with a configuration
of the same content leaves its virtual hosts in the order `a`, `b` where they were `b`,
`a`, its clusters likewise, and the upstream targets of cluster `b` in the order `x`, `y`
where they were `y`, `x`. -/
theorem equals_reorders_configuration :
    (unsortedCfg.equalsM goInsertionSort unsortedCfg).2.1.VirtualHosts.map (fun v => v.Host) =
      ["a", "b"] ∧
    unsortedCfg.VirtualHosts.map (fun v => v.Host) = ["b", "a"] ∧
    (unsortedCfg.equalsM goInsertionSort unsortedCfg).2.1.Clusters.map (fun c => c.Hosts) =
      [["x"], ["x", "y"]] ∧
    unsortedCfg.Clusters.map (fun c => c.Hosts) = [["y", "x"], ["x"]] ∧
    (unsortedCfg.equalsM goInsertionSort unsortedCfg).2.1 ≠ unsortedCfg := by
  have hab : (['a'] : List Char) < ['b'] := by decide
  have hxy : (['x'] : List Char) < ['y'] := by decide
  have hba : ¬ (['b'] : List Char) < ['a'] := by decide
  have hyx : ¬ (['y'] : List Char) < ['x'] := by decide
  have hv : (unsortedCfg.equalsM goInsertionSort unsortedCfg).2.1.VirtualHosts.map
      (fun v => v.Host) = ["a", "b"] := by
    simp [envoyConfiguration.equalsM, VirtualHostsEqualsM, unsortedCfg, sortVirtualHosts,
      goInsertionSort, insertionSort, insertLeft, hab, hba]
  have hc : (unsortedCfg.equalsM goInsertionSort unsortedCfg).2.1.Clusters.map
      (fun c => c.Hosts) = [["x"], ["x", "y"]] := by
    simp [envoyConfiguration.equalsM, ClustersEqualsM, unsortedCfg, sortCluster,
      cluster.identity, clustersLoopM, cluster.EqualsM, sortStrings, hostsLoop,
      goInsertionSort, insertionSort, insertLeft, hab, hba, hxy, hyx]
  refine ⟨hv, rfl, hc, rfl, ?_⟩
  intro heq
  rw [heq] at hv
  exact absurd hv (by decide)

/-- C17, amended: evaluating `cfg.equals(other)` writes to both configurations, but only
reorders them: afterwards the `VirtualHosts` of each is a rearrangement of what it was
(sorted by `Host` when the two have equally many), the `Clusters` of each is a
rearrangement of what it was in which a cluster differs from the original at most in the
order of its `Hosts`, and the result is that of the comparison. -/
theorem equals_only_reorders (S : SliceSort) (cfg other : envoyConfiguration) :
    (cfg.equalsM S other).1 = cfg.equals S (some other) ∧
    (cfg.equalsM S other).2.1.VirtualHosts.Perm cfg.VirtualHosts ∧
    (cfg.equalsM S other).2.2.VirtualHosts.Perm other.VirtualHosts ∧
    (∃ l, l.Perm cfg.Clusters ∧
      List.Forall₂ sameUpToHostOrder (cfg.equalsM S other).2.1.Clusters l) ∧
    (∃ l, l.Perm other.Clusters ∧
      List.Forall₂ sameUpToHostOrder (cfg.equalsM S other).2.2.Clusters l) ∧
    (cfg.VirtualHosts.length = other.VirtualHosts.length →
      (cfg.equalsM S other).2.1.VirtualHosts = sortVirtualHosts S cfg.VirtualHosts ∧
      (cfg.equalsM S other).2.2.VirtualHosts = sortVirtualHosts S other.VirtualHosts) := by
  have hv := VirtualHostsEqualsM_perm S cfg.VirtualHosts other.VirtualHosts
  have hc := ClustersEqualsM_same S cfg.Clusters other.Clusters
  refine ⟨?_, hv.1, hv.2, hc.1, hc.2, ?_⟩
  · simp [envoyConfiguration.equalsM, envoyConfiguration.equals, VirtualHostsEqualsM_fst,
      ClustersEqualsM_fst]
  · intro hlen
    simp [envoyConfiguration.equalsM, VirtualHostsEqualsM, hlen]

end Yggdrasil
